import Mathlib

set_option maxHeartbeats 1000000

namespace Gwf

/-!  Shallow embedding of the gwf example workflow repository:
`workflow.py` (path utilities and template functions) and
`global_params.py` (the `Params` object).  Paths are modelled as lists of
characters; the POSIX `os.path` helpers used by `modify_path` are modelled
below.  Parts of the underlying workflow engine (registration, `map`,
`collect`, graph building, scheduling) are not part of this repository's
source; they are modelled from the specification and marked as such. -/

abbrev Path : Type := List Char

/-- Tail of Python `os.path.split` for POSIX paths: everything after the
last slash. -/
def splitPathTail (p : Path) : Path :=
  (p.reverse.takeWhile (fun c => decide (c ≠ '/'))).reverse

/-- Head of the split before trailing-slash stripping: everything up to and
including the last slash. -/
def splitPathHeadRaw (p : Path) : Path :=
  (p.reverse.drop (p.reverse.takeWhile (fun c => decide (c ≠ '/'))).length).reverse

/-- Model of Python `os.path.split` for POSIX paths: splits at the last
slash; the head keeps its trailing slashes only when it consists entirely
of slashes. -/
def splitPath (p : Path) : Path × Path :=
  (if splitPathHeadRaw p ≠ [] ∧ (splitPathHeadRaw p).any (fun c => decide (c ≠ '/'))
   then ((splitPathHeadRaw p).reverse.dropWhile (fun c => decide (c = '/'))).reverse
   else splitPathHeadRaw p,
   splitPathTail p)

/-- Index of the last dot of a name that contains one. -/
def splitextDotIdx (name : Path) : Nat :=
  name.length - (name.reverse.takeWhile (fun c => decide (c ≠ '.'))).length - 1

/-- Model of Python `os.path.splitext` as applied by `modify_path`, i.e. to
the slash-free tail of an `os.path.split`: the extension begins at the last
dot, unless every character before that dot is itself a dot (leading dots of
a hidden file are not an extension). -/
def splitext (name : Path) : Path × Path :=
  if (name.reverse.takeWhile (fun c => decide (c ≠ '.'))).length = name.length then
    (name, [])
  else if (name.take (splitextDotIdx name)).any (fun c => decide (c ≠ '.')) then
    (name.take (splitextDotIdx name), name.drop (splitextDotIdx name))
  else (name, [])

/-- Model of Python `os.path.join` on two POSIX path components. -/
def joinPath (a b : Path) : Path :=
  if b.head? = some '/' then b
  else if a = [] ∨ a.getLast? = some '/' then a ++ b
  else a ++ '/' :: b

/-- Value passed for the `suffix` keyword of `modify_path`: Python `None`, a
string, or a two-element tuple `(old, new)` (the two-element arity assertion
of the source is structural here). -/
inductive SuffixArg : Type where
  | null : SuffixArg
  | str (s : Path) : SuffixArg
  | tup (old repl : Path) : SuffixArg
deriving DecidableEq

/-- Body of `modify_path` from `workflow.py`.  The `dir`/`base`/`suffix`
keyword dictionary is modelled by the three optional arguments; the arity
assertion over the keyword names is modelled separately by
`modify_path_assertOk`.  The tuple branch models `re.subn` with the anchored
pattern `old + '$'` for a literal `old` (the only form the code constructs):
it substitutes the trailing occurrence and asserts exactly one substitution
was made, so a non-matching tail fails the assertion (`none`). -/
def modify_path (path : Path) (dir base : Option Path) (suffix : SuffixArg) :
    Option Path :=
  let ps := splitPath path
  let ns := splitext ps.2
  let suf := match suffix with | .str s => s | _ => ns.2
  let par := match dir with | some d => d | none => ps.1
  let stem := match base with | some b => b | none => ns.1
  let new_path := joinPath par (stem ++ suf)
  match suffix with
  | .tup old repl =>
      if old.isSuffixOf new_path then
        some (new_path.take (new_path.length - old.length) ++ repl)
      else none
  | _ => some new_path

/-- Python `dict.setdefault` restricted to the key sequence: appends a
missing key at the end of the keyword dictionary. -/
def kwSetdefault (ks : List String) (k : String) : List String :=
  if k ∈ ks then ks else ks ++ [k]

/-- Keyword names of the kwargs dict of a call `modify_path(path, **kwargs)`
after the `setdefault` loop over `dir`, `base`, `suffix` (Python keyword
names are distinct; `ks` lists them in call order). -/
def modify_path_kwkeys (ks : List String) : List String :=
  (["dir", "base", "suffix"]).foldl kwSetdefault ks

/-- Arity assertion of `modify_path`: `assert len(kwargs) == 3` after the
`setdefault` loop; `true` exactly when the assertion passes. -/
def modify_path_assertOk (ks : List String) : Bool :=
  (modify_path_kwkeys ks).length == 3

/-- Python value as appearing in a target's `inputs` field: a file-path
string or an arbitrarily nested list. -/
inductive PyObj : Type where
  | str (s : Path) : PyObj
  | list (l : List PyObj) : PyObj

/-- Model of `gwf.AnonymousTarget` as constructed by the template
functions: inputs (possibly nested lists of path strings), an output label
to path mapping, resource options, and the shell command text. -/
structure AnonymousTarget : Type where
  inputs : List PyObj
  outputs : List (String × Path)
  options : List (String × String)
  spec : Path

/-- Python `str.upper` on the ASCII names used by the workflow. -/
def pyUpper (s : Path) : Path := s.map Char.toUpper

/-- Template function `uppercase_names` from `workflow.py`.  The calls to
`modify_path` use a string (or absent) suffix, for which `modify_path`
always succeeds (`modify_path_str_isSome`/`modify_path_null_isSome` below),
so the `getD []` default is never taken. -/
def uppercase_names (raw_path : Path) : AnonymousTarget :=
  let output_dir : Path := "steps/upper_cased".data
  let uppercased_path :=
    (modify_path raw_path (some output_dir) none
      (SuffixArg.str "_uppercased.txt".data)).getD []
  let inputs := [PyObj.str raw_path]
  let outputs := [("uppercased_path", uppercased_path)]
  let options := [("memory", "8g"), ("walltime", "00:10:00")]
  let tmp_uppercased_path :=
    (modify_path raw_path (some "/tmp".data) none SuffixArg.null).getD []
  let spec :=
    "\n    mkdir -p ".data ++ output_dir ++
    "\n    cat ".data ++ raw_path ++
    " | tr [:lower:] [:upper:] > ".data ++ tmp_uppercased_path ++
    " &&\n        mv ".data ++ tmp_uppercased_path ++
    " ".data ++ uppercased_path ++ "\n    ".data
  { inputs := inputs, outputs := outputs, options := options, spec := spec }

/-- Template function `divide_names` from `workflow.py` (the `me` keyword
must be a string, since the body calls `me.upper()`). -/
def divide_names (uppercased_path : Path) (me : Path) : AnonymousTarget :=
  let uppercased_me := pyUpper me
  let output_dir : Path := "steps/filtered_names".data
  let filt_me_path :=
    (modify_path uppercased_path (some output_dir) none
      (SuffixArg.str ('_' :: me ++ ".txt".data))).getD []
  let filt_other_path :=
    (modify_path uppercased_path (some output_dir) none
      (SuffixArg.str ("_not_".data ++ me ++ ".txt".data))).getD []
  let inputs := [PyObj.str uppercased_path]
  let outputs := [("filt_me_path", filt_me_path), ("filt_other_path", filt_other_path)]
  let options := [("memory", "8g"), ("walltime", "00:10:00")]
  let tmp_filt_me_path :=
    (modify_path filt_me_path (some "/tmp".data) none SuffixArg.null).getD []
  let tmp_filt_other_path :=
    (modify_path filt_other_path (some "/tmp".data) none SuffixArg.null).getD []
  let spec :=
    "\n    mkdir -p ".data ++ output_dir ++
    "    \n    grep ".data ++ uppercased_me ++ " ".data ++ uppercased_path ++
    " > ".data ++ tmp_filt_me_path ++
    " &&  \n        grep -v ".data ++ uppercased_me ++ " ".data ++ uppercased_path ++
    " > ".data ++ tmp_filt_other_path ++
    " &&  \n        mv ".data ++ tmp_filt_me_path ++ " ".data ++ filt_me_path ++
    " &&  \n        mv ".data ++ tmp_filt_other_path ++ " ".data ++ filt_other_path ++
    "\n    ".data
  { inputs := inputs, outputs := outputs, options := options, spec := spec }

/-- Template function `unique_names` from `workflow.py`. -/
def unique_names (filt_me_path filt_other_path : Path) : AnonymousTarget :=
  let output_dir : Path := "steps/unique_names".data
  let uniq_me_path :=
    (modify_path filt_me_path (some output_dir) none
      (SuffixArg.str "_unique.txt".data)).getD []
  let uniq_other_path :=
    (modify_path filt_other_path (some output_dir) none
      (SuffixArg.str "_unique.txt".data)).getD []
  let inputs := [PyObj.str filt_me_path, PyObj.str filt_other_path]
  let outputs := [("unique_me_path", uniq_me_path), ("unique_other_path", uniq_other_path)]
  let options := [("memory", "8g"), ("walltime", "00:10:00")]
  let tmp_uniq_me_path :=
    (modify_path uniq_me_path (some "/tmp".data) none SuffixArg.null).getD []
  let tmp_uniq_other_path :=
    (modify_path uniq_other_path (some "/tmp".data) none SuffixArg.null).getD []
  let spec :=
    "\n    mkdir -p ".data ++ output_dir ++
    "    \n    sort ".data ++ filt_me_path ++ " | uniq > ".data ++ tmp_uniq_me_path ++
    " && \n        sort ".data ++ filt_other_path ++ " | uniq > ".data ++ tmp_uniq_other_path ++
    " && \n        mv ".data ++ tmp_uniq_me_path ++ " ".data ++ uniq_me_path ++
    " && \n        mv ".data ++ tmp_uniq_other_path ++ " ".data ++ uniq_other_path ++
    "\n    ".data
  { inputs := inputs, outputs := outputs, options := options, spec := spec }

/-- Template function `merge_names` from `workflow.py`.  Note the source
writes `inputs = [paths]`: the list of input paths is wrapped in a further
singleton list, not spliced. -/
def merge_names (paths : List Path) (output_path : Path) : AnonymousTarget :=
  let output_dir :=
    (modify_path output_path none (some []) (SuffixArg.str [])).getD []
  let inputs := [PyObj.list (paths.map PyObj.str)]
  let outputs := [("path", output_path)]
  let tmp_output_path :=
    (modify_path output_path (some "/tmp".data) none SuffixArg.null).getD []
  let options := [("memory", "8g"), ("walltime", "00:10:00")]
  let spec :=
    "\n    mkdir -p ".data ++ output_dir ++
    "\n    cat ".data ++ (List.intercalate " ".data paths) ++
    " > ".data ++ tmp_output_path ++
    " && \n        mv ".data ++ tmp_output_path ++ " ".data ++ output_path ++
    "\n    ".data
  { inputs := inputs, outputs := outputs, options := options, spec := spec }

/-- Object built by `Params.__init__` in `global_params.py`: its instance
dictionary, populated by `setattr` for each keyword argument in order. -/
structure Params (V : Type) : Type where
  dict : List (String × V)

/-- Python dictionary assignment `d[k] = v` (the effect of `setattr` on the
instance dictionary): replaces the value in place when the key is present,
otherwise appends the binding. -/
def dictSet {V : Type} (d : List (String × V)) (k : String) (v : V) :
    List (String × V) :=
  bif d.any (fun kv => kv.1 == k) then
    d.map (fun kv => bif kv.1 == k then (k, v) else kv)
  else d ++ [(k, v)]

/-- The `Params.__init__` loop: `setattr(self, key, value)` for each keyword
argument in order, starting from an empty instance dictionary. -/
def Params.init {V : Type} (kwargs : List (String × V)) : Params V :=
  ⟨kwargs.foldl (fun d kv => dictSet d kv.1 kv.2) []⟩

/-- The `Params.__getitem__` method: `self.__dict__[attr]` (a missing key is
a Python `KeyError`, modelled as `none`). -/
def Params.getitem {V : Type} (p : Params V) (k : String) : Option V :=
  p.dict.lookup k

/-- Python attribute access `params.k`, which reads the same instance
dictionary `setattr` populated. -/
def Params.attr {V : Type} (p : Params V) (k : String) : Option V :=
  p.dict.lookup k

/-- Stem of a path: the base name without its extension, the part of the
final filename component that `uppercase_names` keeps when building its
output path. -/
def pathStem (p : Path) : Path :=
  (splitext (splitPath p).2).1

/-- Flat inputs field: an ordered list of plain file-path strings, one per
input file, with no nesting. -/
def FlatInputs (l : List PyObj) : Prop :=
  ∀ x ∈ l, ∃ s, x = PyObj.str s

/-- Error taxonomy of the workflow engine, from the specification. -/
inductive EngineError : Type where
  | duplicateOutputError : EngineError
  | cyclicDependencyError (names : List String) : EngineError
  | missingLabelError (label : String) : EngineError
  | schedulerInternalError : EngineError
deriving DecidableEq

deriving instance DecidableEq for Except

/-- Modelled from the spec: the Target Registry of the engine underlying
this repository (the engine is imported, not part of the source): a pure
store of registered targets in registration order. -/
structure Registry : Type where
  entries : List (String × AnonymousTarget)

/-- Output paths claimed by already-registered targets, in registration
order. -/
def registeredOutputPaths (r : Registry) : List Path :=
  (r.entries.map (fun e => e.2.outputs.map (fun o => o.2))).flatten

/-- Modelled from the spec: `register(target)` fails with
`DuplicateOutputError` if any declared output path collides with an
already-registered output, otherwise appends the target to the registry. -/
def register (r : Registry) (name : String) (t : AnonymousTarget) :
    Except EngineError Registry :=
  if ∃ o ∈ t.outputs, o.2 ∈ registeredOutputPaths r then
    Except.error EngineError.duplicateOutputError
  else Except.ok ⟨r.entries ++ [(name, t)]⟩

/-- Modelled from the spec: `map(templateFn, items, extra=...)` instantiates
one target per item of the ordered collection, invoking the template with
the item plus the shared extra parameters, registers each in order (names
generated from the running index), and returns the targets in input
order. -/
def gwfMap {α ε : Type} (templateFn : α → ε → AnonymousTarget) (extra : ε)
    (mkName : Nat → String) :
    List α → Nat → Registry → Except EngineError (Registry × List AnonymousTarget)
  | [], _, r => Except.ok (r, [])
  | item :: rest, idx, r =>
      match register r (mkName idx) (templateFn item extra) with
      | Except.error e => Except.error e
      | Except.ok r' =>
          match gwfMap templateFn extra mkName rest (idx + 1) r' with
          | Except.error e => Except.error e
          | Except.ok (rf, ts) => Except.ok (rf, templateFn item extra :: ts)

/-- Outputs mapping of one target, as consumed by `collect`. -/
abbrev OutputsMap : Type := List (String × Path)

/-- Pluralized key under which `collect` returns a label's list. -/
def pluralize (label : String) : String := label ++ "s"

/-- Modelled from the spec: the per-label pass of `collect` produces the
ordered list of output paths, one per target in input order, failing with
`MissingLabelError` when some target lacks the label. -/
def collectVals (targets : List OutputsMap) (label : String) :
    Except EngineError (List Path) :=
  match targets with
  | [] => Except.ok []
  | t :: ts =>
      match t.lookup label with
      | some p =>
          match collectVals ts label with
          | Except.error e => Except.error e
          | Except.ok vs => Except.ok (p :: vs)
      | none => Except.error (EngineError.missingLabelError label)

/-- Modelled from the spec: `collect(targets, labels)` returns, for each
requested label in order, the pluralized label mapped to the ordered list of
that label's output path of each target. -/
def collect (targets : List OutputsMap) (labels : List String) :
    Except EngineError (List (String × List Path)) :=
  match labels with
  | [] => Except.ok []
  | l :: ls =>
      match collectVals targets l with
      | Except.error e => Except.error e
      | Except.ok vals =>
          match collect targets ls with
          | Except.error e => Except.error e
          | Except.ok rest => Except.ok ((pluralize l, vals) :: rest)

mutual
/-- File paths contained in one input entry, flattened in order (the engine
flattens nested input lists when deriving dependencies). -/
def flattenPy : PyObj → List Path
  | PyObj.str s => [s]
  | PyObj.list l => flattenPyList l

/-- File paths contained in a list of input entries, flattened in order. -/
def flattenPyList : List PyObj → List Path
  | [] => []
  | x :: xs => flattenPy x ++ flattenPyList xs
end

/-- Input file paths of a target as the dependency deriver sees them. -/
def inputPaths (t : AnonymousTarget) : List Path :=
  flattenPyList t.inputs

/-- Modelled from the spec: mapping from each declared output path to the
index of its producing target. -/
def outputProducers (ts : List AnonymousTarget) : List (Path × Nat) :=
  (ts.enum.map (fun it => it.2.outputs.map (fun o => (o.2, it.1)))).flatten

/-- Modelled from the spec: edges producer → consumer, derived by looking
up each input path of each target in the producer mapping; an input with no
producer is an external file and contributes no edge. -/
def derivedEdges (ts : List AnonymousTarget) : List (Nat × Nat) :=
  (ts.enum.map (fun jt =>
    (inputPaths jt.2).filterMap (fun p =>
      match (outputProducers ts).lookup p with
      | some i => some (i, jt.1)
      | none => none))).flatten

/-- Successor function of the derived dependency graph. -/
def adjOf (ts : List AnonymousTarget) (i : Nat) : List Nat :=
  (derivedEdges ts).filterMap (fun e => if e.1 = i then some e.2 else none)

/-- Acyclicity of a successor function: no node reaches itself through one
or more edges. -/
def Acyclic (adjF : Nat → List Nat) : Prop :=
  ∀ u, ¬ Relation.TransGen (fun a b => b ∈ adjF a) u u

/-- Outcome of the cycle-detecting DFS: a cycle (target indices in detected
order) or exhausted fuel (never reached from `build_graph`, which supplies
sufficient fuel; the constructor keeps the recursion total). -/
inductive DfsErr : Type where
  | cyclic (cyc : List Nat) : DfsErr
  | fuelOut : DfsErr
deriving DecidableEq

/-- Participating targets of a detected cycle, in detected order: the
recursion stack from the first occurrence of the revisited node, closed by
the node itself. -/
def cycleFrom (u : Nat) (stack : List Nat) : List Nat :=
  stack.dropWhile (fun w => w ≠ u) ++ [u]

/-- Depth-first visit of a list of successors with a given per-node
visitor, threading the postorder. -/
def dfsListAux (visit : Nat → List Nat → List Nat → Except DfsErr (List Nat)) :
    List Nat → List Nat → List Nat → Except DfsErr (List Nat)
  | [], _, post => Except.ok post
  | v :: vs, stack, post =>
      match visit v stack post with
      | Except.error e => Except.error e
      | Except.ok post' => dfsListAux visit vs stack post'

/-- Modelled from the spec: depth-first visit with a recursion-stack
marker; fully explored nodes are appended to `post` in postorder.  The fuel
argument only bounds the recursion depth; `build_graph` supplies enough for
it never to run out. -/
def dfsVisit (adjF : Nat → List Nat) : Nat → Nat → List Nat → List Nat →
    Except DfsErr (List Nat)
  | 0, _, _, _ => Except.error DfsErr.fuelOut
  | fuel + 1, u, stack, post =>
      if u ∈ post then Except.ok post
      else if u ∈ stack then Except.error (DfsErr.cyclic (cycleFrom u stack))
      else
        match dfsListAux (dfsVisit adjF fuel) (adjF u) (stack ++ [u]) post with
        | Except.error e => Except.error e
        | Except.ok post' => Except.ok (post' ++ [u])

/-- Modelled from the spec: visit every target in registration order (the
deterministic tie-break), accumulating the postorder. -/
def topoAll (adjF : Nat → List Nat) (fuel : Nat) :
    List Nat → List Nat → Except DfsErr (List Nat)
  | [], post => Except.ok post
  | u :: us, post =>
      match dfsVisit adjF fuel u [] post with
      | Except.error e => Except.error e
      | Except.ok post' => topoAll adjF fuel us post'

/-- Modelled from the spec: `build_graph` derives edges from declared
outputs and inputs, runs the cycle-detecting DFS over all targets in
registration order, and returns a topological ordering of target indices
(the reversed postorder); on a cycle it fails with `CyclicDependencyError`
naming the participating targets in detected order. -/
def build_graph (r : Registry) : Except EngineError (List Nat) :=
  let ts := r.entries.map (fun e => e.2)
  match topoAll (adjOf ts) (ts.length + 1) (List.range ts.length) [] with
  | Except.ok post => Except.ok post.reverse
  | Except.error (DfsErr.cyclic cyc) =>
      Except.error (EngineError.cyclicDependencyError
        (cyc.map (fun i => (r.entries.map (fun e => e.1)).getD i "")))
  | Except.error DfsErr.fuelOut => Except.error EngineError.schedulerInternalError

/-- Postorder invariant of the depth-first graph walk: every node's
successors appear strictly earlier in the postorder list. -/
def PostInv (adjF : Nat → List Nat) (post : List Nat) : Prop :=
  ∀ l1 u l2, post = l1 ++ u :: l2 → ∀ v ∈ adjF u, v ∈ l1

/-- Execution states a target can end in, from the specification (pending,
ready and running are transient; in the sequential dispatch model below a
target is `running` exactly while its command is invoked, recorded in the
`invoked` component of the run). -/
inductive TState : Type where
  | succeeded : TState
  | failed : TState
  | skippedUpToDate : TState
  | skippedFailure : TState
deriving DecidableEq

/-- Upstream states that force a failure-propagated skip. -/
def failedLike : Option TState → Bool
  | some TState.failed => true
  | some TState.skippedFailure => true
  | _ => false

/-- Modelled from the spec: scheduler run over a topological order of
targets (sequential dispatch; the spec's concurrency is outside this
embedding).  A target with a failed or failure-skipped predecessor is
skipped due to failure without its command ever being invoked; an
up-to-date target is skipped as up to date; otherwise the command is
invoked (the target enters the running state, recorded in the second
component) and succeeds or fails as the execution oracle dictates. -/
def runSchedule (preds : Nat → List Nat) (upToDate execOk : Nat → Bool) :
    List Nat → List (Nat × TState) × List Nat → List (Nat × TState) × List Nat
  | [], acc => acc
  | u :: rest, (st, inv) =>
      if (preds u).any (fun p => failedLike (st.lookup p)) then
        runSchedule preds upToDate execOk rest (st ++ [(u, TState.skippedFailure)], inv)
      else if upToDate u then
        runSchedule preds upToDate execOk rest (st ++ [(u, TState.skippedUpToDate)], inv)
      else if execOk u then
        runSchedule preds upToDate execOk rest (st ++ [(u, TState.succeeded)], inv ++ [u])
      else
        runSchedule preds upToDate execOk rest (st ++ [(u, TState.failed)], inv ++ [u])

/-- Final state table of a run started from an empty state. -/
def runStates (preds : Nat → List Nat) (upToDate execOk : Nat → Bool)
    (order : List Nat) : List (Nat × TState) :=
  (runSchedule preds upToDate execOk order ([], [])).1

/-- Targets whose command was invoked during a run started from an empty
state. -/
def runInvoked (preds : Nat → List Nat) (upToDate execOk : Nat → Bool)
    (order : List Nat) : List Nat :=
  (runSchedule preds upToDate execOk order ([], [])).2

/-- Transitive descendant relation induced by a predecessor function: `d` is
a descendant of `t` when a chain of one or more dependency edges leads from
`t` down to `d`. -/
def Reaches (preds : Nat → List Nat) : Nat → Nat → Prop :=
  Relation.TransGen (fun a b => a ∈ preds b)

/-!  Lemmas about association-list lookup and the Params dictionary. -/

theorem lookup_eq_none_of_all_ne {κ V : Type} [BEq κ] [LawfulBEq κ] (k : κ) :
    ∀ d : List (κ × V), (∀ kv ∈ d, kv.1 ≠ k) → d.lookup k = none := by
  intro d
  induction d with
  | nil => intro _; rfl
  | cons a t ih =>
      obtain ⟨a1, a2⟩ := a
      intro h
      have hk : (k == a1) = false := by
        refine beq_eq_false_iff_ne.mpr ?_
        intro he
        exact h (a1, a2) (by simp) (by simpa using he.symm)
      rw [List.lookup_cons, hk]
      exact ih (fun kv hkv => h kv (List.mem_cons_of_mem _ hkv))

theorem lookup_append_left {κ V : Type} [BEq κ] [LawfulBEq κ] (k : κ) (v : V) :
    ∀ d1 d2 : List (κ × V), d1.lookup k = some v →
      (d1 ++ d2).lookup k = some v := by
  intro d1
  induction d1 with
  | nil => intro d2 h; simp at h
  | cons a t ih =>
      obtain ⟨a1, a2⟩ := a
      intro d2 h
      rw [List.lookup_cons] at h
      rw [List.cons_append, List.lookup_cons]
      cases hk : (k == a1) with
      | true => rw [hk] at h; exact h
      | false => rw [hk] at h; exact ih d2 h

theorem lookup_append_right {κ V : Type} [BEq κ] [LawfulBEq κ] (k : κ) :
    ∀ d1 d2 : List (κ × V), d1.lookup k = none →
      (d1 ++ d2).lookup k = d2.lookup k := by
  intro d1
  induction d1 with
  | nil => intro d2 _; rfl
  | cons a t ih =>
      obtain ⟨a1, a2⟩ := a
      intro d2 h
      rw [List.lookup_cons] at h
      rw [List.cons_append, List.lookup_cons]
      cases hk : (k == a1) with
      | true => rw [hk] at h; cases h
      | false => rw [hk] at h; exact ih d2 h

theorem lookup_map_set_found {V : Type} (k : String) (v : V) :
    ∀ d : List (String × V), d.any (fun kv => kv.1 == k) = true →
      (d.map (fun kv => bif kv.1 == k then (k, v) else kv)).lookup k = some v := by
  intro d
  induction d with
  | nil => intro h; simp at h
  | cons a t ih =>
      obtain ⟨a1, a2⟩ := a
      intro h
      cases ha : (a1 == k) with
      | true =>
          simp only [List.map_cons, ha, cond_true]
          rw [List.lookup_cons, beq_self_eq_true]
      | false =>
          simp only [List.map_cons, ha, cond_false]
          have hk : (k == a1) = false := by
            refine beq_eq_false_iff_ne.mpr ?_
            intro he
            rw [he] at ha
            simp at ha
          rw [List.lookup_cons, hk]
          apply ih
          simp only [List.any_cons, ha, Bool.false_or] at h
          exact h

theorem lookup_map_set_other {V : Type} (k2 k : String) (v : V) (hne : k2 ≠ k) :
    ∀ d : List (String × V),
      (d.map (fun kv => bif kv.1 == k2 then (k2, v) else kv)).lookup k = d.lookup k := by
  intro d
  induction d with
  | nil => rfl
  | cons a t ih =>
      obtain ⟨a1, a2⟩ := a
      cases ha : (a1 == k2) with
      | true =>
          have ha' : a1 = k2 := by simpa using ha
          simp only [List.map_cons, ha, cond_true]
          have h1 : (k == k2) = false :=
            beq_eq_false_iff_ne.mpr (fun h => hne h.symm)
          rw [List.lookup_cons, h1, List.lookup_cons, ha', h1, ih]
      | false =>
          simp only [List.map_cons, ha, cond_false]
          rw [List.lookup_cons, List.lookup_cons]
          cases hk : (k == a1) with
          | true => rfl
          | false => exact ih

theorem dictSet_lookup_self {V : Type} (k : String) (v : V)
    (d : List (String × V)) : (dictSet d k v).lookup k = some v := by
  unfold dictSet
  cases hany : d.any (fun kv => kv.1 == k) with
  | true =>
      simp only [cond_true]
      exact lookup_map_set_found k v d hany
  | false =>
      simp only [cond_false]
      have h : List.lookup k d = none := by
        apply lookup_eq_none_of_all_ne
        intro kv hkv hk1
        have : d.any (fun kv => kv.1 == k) = true :=
          List.any_eq_true.mpr ⟨kv, hkv, by simp [hk1]⟩
        rw [this] at hany
        cases hany
      rw [lookup_append_right k d _ h, List.lookup_cons, beq_self_eq_true]

theorem dictSet_lookup_ne {V : Type} (k2 k : String) (v : V) (hne : k2 ≠ k)
    (d : List (String × V)) : (dictSet d k2 v).lookup k = d.lookup k := by
  unfold dictSet
  cases hany : d.any (fun kv => kv.1 == k2) with
  | true =>
      simp only [cond_true]
      exact lookup_map_set_other k2 k v hne d
  | false =>
      simp only [cond_false]
      cases h : List.lookup k d with
      | some w => exact lookup_append_left k w d _ h
      | none =>
          rw [lookup_append_right k d _ h, List.lookup_cons]
          have h1 : (k == k2) = false :=
            beq_eq_false_iff_ne.mpr (fun h => hne h.symm)
          rw [h1]
          rfl

theorem foldl_dictSet_lookup_notmem {V : Type} (k : String) :
    ∀ (kwargs : List (String × V)) (d : List (String × V)),
      (∀ kv ∈ kwargs, kv.1 ≠ k) →
      (kwargs.foldl (fun d kv => dictSet d kv.1 kv.2) d).lookup k = d.lookup k := by
  intro kwargs
  induction kwargs with
  | nil => intro d _; rfl
  | cons a t ih =>
      intro d h
      simp only [List.foldl]
      rw [ih (dictSet d a.1 a.2) (fun kv hkv => h kv (List.mem_cons_of_mem _ hkv))]
      exact dictSet_lookup_ne a.1 k a.2 (h a (by simp)) d

theorem foldl_dictSet_lookup {V : Type} (k : String) (v : V) :
    ∀ (kwargs : List (String × V)) (d : List (String × V)),
      (kwargs.map Prod.fst).Nodup → (k, v) ∈ kwargs →
      (kwargs.foldl (fun d kv => dictSet d kv.1 kv.2) d).lookup k = some v := by
  intro kwargs
  induction kwargs with
  | nil => intro d _ hm; simp at hm
  | cons a t ih =>
      intro d hn hm
      simp only [List.map, List.nodup_cons] at hn
      rcases List.mem_cons.mp hm with heq | htail
      · subst heq
        simp only [List.foldl]
        rw [foldl_dictSet_lookup_notmem k t _ ?_]
        · exact dictSet_lookup_self k v d
        · intro kv hkv hk
          have hmem2 : kv.1 ∈ t.map Prod.fst := List.mem_map_of_mem _ hkv
          rw [hk] at hmem2
          exact hn.1 hmem2
      · exact ih _ hn.2 htail

/-- C8: constructing `Params` from a keyword mapping and reading any present
key back — via indexing (`params[k]`) or attribute access (`params.k`) —
returns exactly the value the mapping holds for that key. -/
theorem params_roundtrip {V : Type} (kwargs : List (String × V)) (k : String)
    (v : V) (hnodup : (kwargs.map Prod.fst).Nodup) (hmem : (k, v) ∈ kwargs) :
    (Params.init kwargs).getitem k = some v ∧
      (Params.init kwargs).attr k = some v := by
  have h := foldl_dictSet_lookup k v kwargs [] hnodup hmem
  exact ⟨h, h⟩

/-- Witness for C8 at a concrete two-key mapping. -/
theorem params_roundtrip_witness :
    (Params.init [("alpha", 1), ("beta", 2)]).getitem "beta" = some 2 ∧
      (Params.init [("alpha", 1), ("beta", 2)]).attr "beta" = some 2 :=
  params_roundtrip [("alpha", 1), ("beta", 2)] "beta" 2 (by decide) (by decide)

/-!  The arity assertion of modify_path. -/

theorem kwkeys_eq (ks : List String) :
    modify_path_kwkeys ks =
      ks ++ (["dir", "base", "suffix"].filter (fun k => decide (k ∉ ks))) := by
  by_cases h1 : ("dir" : String) ∈ ks <;>
    by_cases h2 : ("base" : String) ∈ ks <;>
      by_cases h3 : ("suffix" : String) ∈ ks <;>
        simp [modify_path_kwkeys, kwSetdefault, h1, h2, h3, List.filter]

theorem modify_path_assert_iff (ks : List String) (hnodup : ks.Nodup) :
    modify_path_assertOk ks = true ↔
      ∀ k ∈ ks, k ∈ (["dir", "base", "suffix"] : List String) := by
  have hkw := kwkeys_eq ks
  have hthree : (["dir", "base", "suffix"] : List String).Nodup := by decide
  have hfn : (["dir", "base", "suffix"].filter (fun k => decide (k ∉ ks))).Nodup :=
    hthree.filter _
  have hdisj : ∀ a ∈ ks,
      a ∉ ["dir", "base", "suffix"].filter (fun k => decide (k ∉ ks)) := by
    intro a ha hmem
    have := (List.mem_filter.mp hmem).2
    simp at this
    exact this ha
  have hnodupAll : (modify_path_kwkeys ks).Nodup := by
    rw [hkw]
    exact List.Nodup.append hnodup hfn hdisj
  have hsetEq : (modify_path_kwkeys ks).toFinset =
      ks.toFinset ∪ (["dir", "base", "suffix"] : List String).toFinset := by
    ext a
    simp only [List.mem_toFinset, Finset.mem_union, hkw, List.mem_append,
      List.mem_filter]
    constructor
    · rintro (h | ⟨h, _⟩)
      · exact Or.inl h
      · exact Or.inr h
    · rintro (h | h)
      · exact Or.inl h
      · by_cases hk : a ∈ ks
        · exact Or.inl hk
        · exact Or.inr ⟨h, by simpa using hk⟩
  have hlen : (modify_path_kwkeys ks).length = (modify_path_kwkeys ks).toFinset.card :=
    (List.toFinset_card_of_nodup hnodupAll).symm
  have hTcard : (["dir", "base", "suffix"] : List String).toFinset.card = 3 := by decide
  constructor
  · intro hok
    intro k hk
    have h3 : (modify_path_kwkeys ks).length = 3 := by
      simpa [modify_path_assertOk] using hok
    rw [hlen, hsetEq] at h3
    have hsub : (["dir", "base", "suffix"] : List String).toFinset ⊆
        ks.toFinset ∪ (["dir", "base", "suffix"] : List String).toFinset :=
      Finset.subset_union_right
    have hle : (ks.toFinset ∪ (["dir", "base", "suffix"] : List String).toFinset).card ≤
        (["dir", "base", "suffix"] : List String).toFinset.card := by
      rw [h3, hTcard]
    have hEq := Finset.eq_of_subset_of_card_le hsub hle
    have hks : ks.toFinset ⊆ (["dir", "base", "suffix"] : List String).toFinset := by
      rw [hEq]
      exact Finset.subset_union_left
    have := hks (List.mem_toFinset.mpr hk)
    exact List.mem_toFinset.mp this
  · intro hsub
    have hks : ks.toFinset ⊆ (["dir", "base", "suffix"] : List String).toFinset := by
      intro a ha
      exact List.mem_toFinset.mpr (hsub a (List.mem_toFinset.mp ha))
    have hUnion : ks.toFinset ∪ (["dir", "base", "suffix"] : List String).toFinset =
        (["dir", "base", "suffix"] : List String).toFinset :=
      Finset.union_eq_right.mpr hks
    simp only [modify_path_assertOk]
    rw [beq_iff_eq, hlen, hsetEq, hUnion, hTcard]

/-- Witness for C9: a dir-only call passes the assertion; a call passing a
keyword outside dir/base/suffix fails it. -/
theorem modify_path_assert_iff_witness :
    modify_path_assertOk ["dir"] = true ∧
      ¬ modify_path_assertOk ["dir", "bogus"] = true :=
  ⟨(modify_path_assert_iff ["dir"] (by decide)).mpr (by decide),
   fun h =>
     absurd ((modify_path_assert_iff ["dir", "bogus"] (by decide)).mp h
       "bogus" (by decide)) (by decide)⟩

/-!  Path lemmas: splitPath, splitext and joinPath. -/

theorem modify_path_str_isSome (path : Path) (dir base : Option Path) (s : Path) :
    (modify_path path dir base (SuffixArg.str s)).isSome = true := rfl

theorem modify_path_null_isSome (path : Path) (dir base : Option Path) :
    (modify_path path dir base SuffixArg.null).isSome = true := rfl

theorem splitPath_snd_eq_tail (p : Path) : (splitPath p).2 = splitPathTail p := rfl

theorem splitPath_snd_no_slash (p : Path) : ∀ c ∈ (splitPath p).2, c ≠ '/' := by
  intro c hc
  rw [splitPath_snd_eq_tail] at hc
  unfold splitPathTail at hc
  rw [List.mem_reverse] at hc
  have := List.mem_takeWhile_imp hc
  simpa using this

theorem splitext_append (name : Path) :
    (splitext name).1 ++ (splitext name).2 = name := by
  unfold splitext
  split
  · simp
  · split
    · exact List.take_append_drop _ name
    · simp

theorem splitext_fst_subset (name : Path) : ∀ c ∈ (splitext name).1, c ∈ name := by
  intro c hc
  unfold splitext at hc
  split at hc
  · exact hc
  · split at hc
    · exact List.mem_of_mem_take hc
    · exact hc

theorem takeWhile_prefix_slash (m r : Path) (hm : ∀ c ∈ m, c ≠ '/') :
    (m ++ '/' :: r).takeWhile (fun c => decide (c ≠ '/')) = m := by
  rw [List.takeWhile_append_of_pos (fun a ha => by simpa using hm a ha)]
  simp

theorem splitPathTail_concat (x name : Path) (hn : ∀ c ∈ name, c ≠ '/') :
    splitPathTail (x ++ '/' :: name) = name := by
  unfold splitPathTail
  have hrev : (x ++ '/' :: name).reverse = name.reverse ++ '/' :: x.reverse := by
    simp
  rw [hrev, takeWhile_prefix_slash name.reverse x.reverse
    (fun c hc => hn c (List.mem_reverse.mp hc)), List.reverse_reverse]

theorem splitPath_snd_concat (x name : Path) (hn : ∀ c ∈ name, c ≠ '/') :
    (splitPath (x ++ '/' :: name)).2 = name := by
  rw [splitPath_snd_eq_tail]
  exact splitPathTail_concat x name hn

theorem takeWhile_no_slash_all (name : Path) (hn : ∀ c ∈ name, c ≠ '/') :
    name.reverse.takeWhile (fun c => decide (c ≠ '/')) = name.reverse :=
  List.takeWhile_eq_self_iff.mpr
    (fun c hc => by simpa using hn c (List.mem_reverse.mp hc))

theorem splitPath_snd_self (name : Path) (hn : ∀ c ∈ name, c ≠ '/') :
    (splitPath name).2 = name := by
  rw [splitPath_snd_eq_tail]
  unfold splitPathTail
  rw [takeWhile_no_slash_all name hn, List.reverse_reverse]

theorem splitPathHeadRaw_self (name : Path) (hn : ∀ c ∈ name, c ≠ '/') :
    splitPathHeadRaw name = [] := by
  unfold splitPathHeadRaw
  rw [takeWhile_no_slash_all name hn, List.drop_length]
  rfl

theorem splitPath_fst_nil_dir (name : Path) (hn : ∀ c ∈ name, c ≠ '/') :
    (splitPath name).1 = [] := by
  show (if splitPathHeadRaw name ≠ [] ∧
      (splitPathHeadRaw name).any (fun c => decide (c ≠ '/'))
    then ((splitPathHeadRaw name).reverse.dropWhile (fun c => decide (c = '/'))).reverse
    else splitPathHeadRaw name) = []
  rw [splitPathHeadRaw_self name hn]
  rw [if_neg (fun h => h.1 rfl)]

theorem splitPathHeadRaw_concat (x name : Path) (hn : ∀ c ∈ name, c ≠ '/') :
    splitPathHeadRaw (x ++ '/' :: name) = x ++ ['/'] := by
  unfold splitPathHeadRaw
  have hrev : (x ++ '/' :: name).reverse = name.reverse ++ '/' :: x.reverse := by
    simp
  rw [hrev, takeWhile_prefix_slash name.reverse x.reverse
    (fun c hc => hn c (List.mem_reverse.mp hc)), List.drop_left]
  simp

theorem splitPath_fst_concat (d0 : Path) (c : Char) (name : Path)
    (hn : ∀ ch ∈ name, ch ≠ '/') (hc : c ≠ '/') :
    (splitPath ((d0 ++ [c]) ++ '/' :: name)).1 = d0 ++ [c] := by
  have hraw := splitPathHeadRaw_concat (d0 ++ [c]) name hn
  show (if splitPathHeadRaw ((d0 ++ [c]) ++ '/' :: name) ≠ [] ∧
      (splitPathHeadRaw ((d0 ++ [c]) ++ '/' :: name)).any (fun ch => decide (ch ≠ '/'))
    then ((splitPathHeadRaw ((d0 ++ [c]) ++ '/' :: name)).reverse.dropWhile
      (fun ch => decide (ch = '/'))).reverse
    else splitPathHeadRaw ((d0 ++ [c]) ++ '/' :: name)) = d0 ++ [c]
  rw [hraw]
  rw [if_pos ⟨by simp, List.any_eq_true.mpr ⟨c, by simp, by simpa using hc⟩⟩]
  have hrev : ((d0 ++ [c]) ++ ['/']).reverse = '/' :: c :: d0.reverse := by simp
  rw [hrev, List.dropWhile_cons_of_pos (by simp),
    List.dropWhile_cons_of_neg (by simpa using hc)]
  simp

theorem splitPath_fst_allslash (d0 name : Path) (hn : ∀ c ∈ name, c ≠ '/')
    (hall : ∀ c ∈ d0 ++ ['/'], c = '/') :
    (splitPath ((d0 ++ ['/']) ++ name)).1 = d0 ++ ['/'] := by
  have hq : (d0 ++ ['/']) ++ name = d0 ++ '/' :: name := by simp
  have hraw : splitPathHeadRaw ((d0 ++ ['/']) ++ name) = d0 ++ ['/'] := by
    rw [hq]
    exact splitPathHeadRaw_concat d0 name hn
  have hcond : ¬ (splitPathHeadRaw ((d0 ++ ['/']) ++ name) ≠ [] ∧
      (splitPathHeadRaw ((d0 ++ ['/']) ++ name)).any (fun ch => decide (ch ≠ '/'))) := by
    rintro ⟨-, hany⟩
    rw [hraw] at hany
    rcases List.any_eq_true.mp hany with ⟨ch, hmem, hch⟩
    exact absurd (hall ch hmem) (by simpa using hch)
  show (if splitPathHeadRaw ((d0 ++ ['/']) ++ name) ≠ [] ∧
      (splitPathHeadRaw ((d0 ++ ['/']) ++ name)).any (fun ch => decide (ch ≠ '/'))
    then ((splitPathHeadRaw ((d0 ++ ['/']) ++ name)).reverse.dropWhile
      (fun ch => decide (ch = '/'))).reverse
    else splitPathHeadRaw ((d0 ++ ['/']) ++ name)) = d0 ++ ['/']
  rw [if_neg hcond, hraw]

theorem modify_path_dir_eq (path d : Path) :
    modify_path path (some d) none SuffixArg.null =
      some (joinPath d (splitPath path).2) := by
  simp only [modify_path, splitext_append]

theorem joinPath_cases (d name : Path) (hn : ∀ c ∈ name, c ≠ '/') :
    (d = [] ∧ joinPath d name = name) ∨
    (d.getLast? = some '/' ∧ joinPath d name = d ++ name) ∨
    (d ≠ [] ∧ d.getLast? ≠ some '/' ∧ joinPath d name = d ++ '/' :: name) := by
  have hb : ¬ name.head? = some '/' := by
    intro hh
    cases name with
    | nil => simp at hh
    | cons a t =>
        simp only [List.head?_cons, Option.some.injEq] at hh
        exact hn a (by simp) hh
  by_cases hnil : d = []
  · left
    refine ⟨hnil, ?_⟩
    unfold joinPath
    rw [if_neg hb, if_pos (Or.inl hnil), hnil]
    rfl
  · by_cases hlast : d.getLast? = some '/'
    · right; left
      refine ⟨hlast, ?_⟩
      unfold joinPath
      rw [if_neg hb, if_pos (Or.inr hlast)]
    · right; right
      refine ⟨hnil, hlast, ?_⟩
      unfold joinPath
      rw [if_neg hb, if_neg (fun h => h.elim hnil hlast)]

/-- C10 amended: `modify_path(path, dir=d)` returns `os.path.join(d, name)`
where `name` is the final filename component of the input path; that result
has final filename component exactly `name`, and its directory part (in the
sense of `os.path.split`) equals `d` whenever `d` does not end with a slash
or consists entirely of slashes.  (For other `d` — a nonempty directory
with a trailing slash — the directory part of the result is `d` with its
trailing slashes stripped, not `d` itself; see the counterexample.) -/
theorem modify_path_dir_frame (path d : Path)
    (hd : d.getLast? ≠ some '/' ∨ ∀ c ∈ d, c = '/') :
    modify_path path (some d) none SuffixArg.null =
      some (joinPath d (splitPath path).2) ∧
    (splitPath (joinPath d (splitPath path).2)).2 = (splitPath path).2 ∧
    (splitPath (joinPath d (splitPath path).2)).1 = d := by
  have hn := splitPath_snd_no_slash path
  refine ⟨modify_path_dir_eq path d, ?_⟩
  rcases joinPath_cases d (splitPath path).2 hn with ⟨hnil, hj⟩ | ⟨hlast, hj⟩ |
      ⟨hnil, hlast, hj⟩
  · rw [hj, hnil]
    exact ⟨splitPath_snd_self _ hn, splitPath_fst_nil_dir _ hn⟩
  · -- d ends with a slash: by the hypothesis d is entirely slashes
    have hall : ∀ c ∈ d, c = '/' := by
      rcases hd with h | h
      · exact absurd hlast h
      · exact h
    have hne : d ≠ [] := by
      intro h
      rw [h] at hlast
      simp at hlast
    obtain ⟨d0, c, rfl⟩ : ∃ d0 c, d = d0 ++ [c] := by
      rcases List.eq_nil_or_concat d with h | ⟨d0, c, h⟩
      · exact absurd h hne
      · exact ⟨d0, c, by simpa [List.concat_eq_append] using h⟩
    have hc : c = '/' := hall c (by simp)
    subst hc
    rw [hj]
    constructor
    · have he : (d0 ++ ['/']) ++ (splitPath path).2
          = d0 ++ '/' :: (splitPath path).2 := by simp
      rw [he]
      exact splitPath_snd_concat d0 _ hn
    · exact splitPath_fst_allslash d0 _ hn hall
  · obtain ⟨d0, c, rfl⟩ : ∃ d0 c, d = d0 ++ [c] := by
      rcases List.eq_nil_or_concat d with h | ⟨d0, c, h⟩
      · exact absurd h hnil
      · exact ⟨d0, c, by simpa [List.concat_eq_append] using h⟩
    have hc : c ≠ '/' := by
      intro h
      apply hlast
      rw [h]
      exact List.getLast?_concat _
    rw [hj]
    exact ⟨splitPath_snd_concat _ _ hn, splitPath_fst_concat d0 c _ hn hc⟩

/-- Witness for the amended C10 at a concrete path and directory. -/
theorem modify_path_dir_frame_witness :
    modify_path "data/input_file1.txt".data (some "steps".data) none SuffixArg.null
      = some "steps/input_file1.txt".data ∧
    (splitPath "steps/input_file1.txt".data).2 = "input_file1.txt".data ∧
    (splitPath "steps/input_file1.txt".data).1 = "steps".data := by
  have h := modify_path_dir_frame "data/input_file1.txt".data "steps".data
    (Or.inl (by decide))
  have e1 : joinPath "steps".data (splitPath "data/input_file1.txt".data).2
      = "steps/input_file1.txt".data := by decide
  have e2 : (splitPath "data/input_file1.txt".data).2 = "input_file1.txt".data := by
    decide
  rw [e1, e2] at h
  exact h

/-- C10 counterexample: with `dir='a/'` (a directory string with a trailing
slash) the result is `a/x.txt`, whose directory part under `os.path.split`
is `a`, not the requested `a/`: the claim's universally quantified
directory-part equality fails. -/
theorem modify_path_dir_cx :
    modify_path "x.txt".data (some "a/".data) none SuffixArg.null
      = some "a/x.txt".data ∧
    (splitPath "a/x.txt".data).1 = "a".data ∧
    "a".data ≠ "a/".data := by decide

/-!  Outputs of uppercase_names, output collisions, and registration. -/

theorem pathStem_no_slash (p : Path) : ∀ c ∈ pathStem p, c ≠ '/' := by
  intro c hc
  exact splitPath_snd_no_slash p c (splitext_fst_subset _ c hc)

theorem uppercase_names_output (raw : Path) :
    (uppercase_names raw).outputs =
      [("uppercased_path",
        "steps/upper_cased/".data ++ (pathStem raw ++ "_uppercased.txt".data))] := by
  have hmp : modify_path raw (some "steps/upper_cased".data) none
      (SuffixArg.str "_uppercased.txt".data)
      = some (joinPath "steps/upper_cased".data
          (pathStem raw ++ "_uppercased.txt".data)) := rfl
  have hb : ¬ (pathStem raw ++ "_uppercased.txt".data).head? = some '/' := by
    cases hstem0 : pathStem raw with
    | nil =>
        intro h
        exact absurd h (by decide)
    | cons a t =>
        intro h
        simp only [List.cons_append, List.head?_cons, Option.some.injEq] at h
        exact pathStem_no_slash raw a (by rw [hstem0]; simp) h
  have hjoin : joinPath "steps/upper_cased".data
      (pathStem raw ++ "_uppercased.txt".data)
      = "steps/upper_cased".data ++ '/' :: (pathStem raw ++ "_uppercased.txt".data) := by
    unfold joinPath
    rw [if_neg hb,
      if_neg (fun h => h.elim (fun h1 => absurd h1 (by decide))
        (fun h2 => absurd h2 (by decide)))]
  show [("uppercased_path",
      (modify_path raw (some "steps/upper_cased".data) none
        (SuffixArg.str "_uppercased.txt".data)).getD [])] = _
  rw [hmp, Option.getD_some, hjoin]
  have hA : ("steps/upper_cased/".data : Path)
      = "steps/upper_cased".data ++ ['/'] := rfl
  rw [hA]
  simp

/-- C1 amended: distinct raw input paths yield distinct
`uppercased_path` outputs from `uppercase_names` exactly when their path
stems (basename without extension) differ — paths sharing a stem, e.g. the
same filename in different directories, collide on the same output path —
and (engine modelled from the spec) `register` fails with
`DuplicateOutputError` precisely when a declared output path collides with
an already-registered output. -/
theorem uppercase_distinct_and_register (p q : Path)
    (hst : pathStem p ≠ pathStem q) :
    (uppercase_names p).outputs ≠ (uppercase_names q).outputs ∧
    ∀ (r : Registry) (nm : String) (t : AnonymousTarget),
      register r nm t = Except.error EngineError.duplicateOutputError ↔
        ∃ o ∈ t.outputs, o.2 ∈ registeredOutputPaths r := by
  constructor
  · intro heq
    rw [uppercase_names_output, uppercase_names_output] at heq
    simp only [List.cons.injEq, Prod.mk.injEq] at heq
    have h := heq.1.2
    have h2 := List.append_cancel_left h
    have h3 := List.append_cancel_right h2
    exact hst h3
  · intro r nm t
    unfold register
    split
    · next hcol => exact iff_of_true rfl hcol
    · next hcol => exact iff_of_false (fun h => Except.noConfusion h) hcol

/-- Witness for the amended C1: the two actual workflow input files have
distinct stems, hence distinct outputs; and registering a target whose
output collides with an already-registered one is rejected. -/
theorem uppercase_distinct_and_register_witness :
    (uppercase_names "data/input_file1.txt".data).outputs
      ≠ (uppercase_names "data/input_file2.txt".data).outputs ∧
    register ⟨[("t0", uppercase_names "data/input_file1.txt".data)]⟩ "t1"
        (uppercase_names "steps/input_file1.txt".data)
      = Except.error EngineError.duplicateOutputError := by
  have h := uppercase_distinct_and_register "data/input_file1.txt".data
    "data/input_file2.txt".data (by decide)
  exact ⟨h.1, (h.2 _ "t1" _).mpr (by decide)⟩

/-- C1 counterexample: two distinct raw input paths that share a basename
produce `uppercase_names` targets whose declared output sets are identical
(both claim `steps/upper_cased/x_uppercased.txt`), so output sets of
distinct targets built from distinct inputs are not always disjoint. -/
theorem uppercase_collision_cx :
    "a/x.txt".data ≠ "b/x.txt".data ∧
    (uppercase_names "a/x.txt".data).outputs
      = (uppercase_names "b/x.txt".data).outputs ∧
    ((uppercase_names "a/x.txt".data).outputs).lookup "uppercased_path"
      = some "steps/upper_cased/x_uppercased.txt".data := by
  refine ⟨by decide, by decide, by decide⟩

/-!  Shape of the inputs field of the template functions. -/

/-- C2 counterexample: `merge_names` writes `inputs = [paths]`, wrapping the
path list in a further singleton list; its inputs field is a nesting of
`paths`, not `paths` itself. -/
theorem merge_inputs_cx :
    (merge_names ["steps/unique_names/x_unique.txt".data]
        "results/merged.txt".data).inputs
      = [PyObj.list [PyObj.str "steps/unique_names/x_unique.txt".data]] ∧
    (merge_names ["steps/unique_names/x_unique.txt".data]
        "results/merged.txt".data).inputs
      ≠ [PyObj.str "steps/unique_names/x_unique.txt".data] := by
  constructor
  · rfl
  · intro h
    injection h with h1 _
    cases h1

/-- C2 amended: `uppercase_names`, `divide_names` and `unique_names` return
targets whose inputs field is a flat ordered list of input path strings,
one per input file; `merge_names(paths, output_path)` instead returns the
singleton list containing `paths` — a nested list, not `paths` itself. -/
theorem template_inputs_shape (raw up me f1 f2 out : Path) (paths : List Path) :
    (uppercase_names raw).inputs = [PyObj.str raw] ∧
    FlatInputs (uppercase_names raw).inputs ∧
    (divide_names up me).inputs = [PyObj.str up] ∧
    FlatInputs (divide_names up me).inputs ∧
    (unique_names f1 f2).inputs = [PyObj.str f1, PyObj.str f2] ∧
    FlatInputs (unique_names f1 f2).inputs ∧
    (merge_names paths out).inputs = [PyObj.list (paths.map PyObj.str)] ∧
    ¬ FlatInputs (merge_names paths out).inputs := by
  refine ⟨rfl, ?_, rfl, ?_, rfl, ?_, rfl, ?_⟩
  · intro x hx
    have hi : (uppercase_names raw).inputs = [PyObj.str raw] := rfl
    rw [hi] at hx
    exact ⟨raw, List.mem_singleton.mp hx⟩
  · intro x hx
    have hi : (divide_names up me).inputs = [PyObj.str up] := rfl
    rw [hi] at hx
    exact ⟨up, List.mem_singleton.mp hx⟩
  · intro x hx
    have hi : (unique_names f1 f2).inputs = [PyObj.str f1, PyObj.str f2] := rfl
    rw [hi] at hx
    rcases List.mem_cons.mp hx with h | h
    · exact ⟨f1, h⟩
    · exact ⟨f2, List.mem_singleton.mp h⟩
  · intro h
    have hi : (merge_names paths out).inputs
        = [PyObj.list (paths.map PyObj.str)] := rfl
    rw [hi] at h
    obtain ⟨s, hs⟩ := h _ (List.mem_singleton.mpr rfl)
    cases hs

/-!  The collect helper (engine modelled from the spec). -/

theorem collectVals_ok (lab : String) :
    ∀ targets : List OutputsMap, (∀ t ∈ targets, (t.lookup lab).isSome = true) →
      collectVals targets lab
        = Except.ok (targets.map (fun t => (t.lookup lab).getD [])) := by
  intro targets
  induction targets with
  | nil => intro _; rfl
  | cons t ts ih =>
      intro h
      obtain ⟨p, hp⟩ := Option.isSome_iff_exists.mp (h t (by simp))
      unfold collectVals
      rw [hp, ih (fun u hu => h u (List.mem_cons_of_mem _ hu))]
      simp [hp]

theorem collectVals_error_of_missing (lab : String) :
    ∀ targets : List OutputsMap, (∃ t ∈ targets, t.lookup lab = none) →
      collectVals targets lab
        = Except.error (EngineError.missingLabelError lab) := by
  intro targets
  induction targets with
  | nil => rintro ⟨t, ht, -⟩; cases ht
  | cons t ts ih =>
      rintro ⟨u, hu, hnone⟩
      unfold collectVals
      rcases List.mem_cons.mp hu with rfl | hu2
      · rw [hnone]
      · cases hp : u.lookup lab with
        | some p =>
            rw [hp] at hnone
            cases hnone
        | none =>
            cases hp2 : t.lookup lab with
            | none => rfl
            | some q =>
                rw [ih ⟨u, hu2, hp⟩]

theorem collect_ok_of_all (targets : List OutputsMap) :
    ∀ labels : List String,
      (∀ lab ∈ labels, ∀ t ∈ targets, (t.lookup lab).isSome = true) →
      ∃ res, collect targets labels = Except.ok res := by
  intro labels
  induction labels with
  | nil => intro _; exact ⟨[], rfl⟩
  | cons l ls ih =>
      intro h
      obtain ⟨res, hres⟩ := ih (fun lab hl => h lab (List.mem_cons_of_mem _ hl))
      refine ⟨(pluralize l, targets.map (fun t => (t.lookup l).getD [])) :: res, ?_⟩
      unfold collect
      rw [collectVals_ok l targets (h l (by simp)), hres]

theorem collect_error_of_missing (targets : List OutputsMap) :
    ∀ labels : List String,
      (∃ lab ∈ labels, ∃ t ∈ targets, t.lookup lab = none) →
      ∃ lab2 ∈ labels, collect targets labels
        = Except.error (EngineError.missingLabelError lab2) := by
  intro labels
  induction labels with
  | nil => rintro ⟨lab, hl, -⟩; cases hl
  | cons l ls ih =>
      rintro ⟨lab, hl, hmiss⟩
      by_cases hhead : ∃ t ∈ targets, t.lookup l = none
      · refine ⟨l, by simp, ?_⟩
        unfold collect
        rw [collectVals_error_of_missing l targets hhead]
      · have hl2 : lab ∈ ls := by
          rcases List.mem_cons.mp hl with rfl | h2
          · exact absurd hmiss hhead
          · exact h2
        obtain ⟨lab2, hlab2, herr⟩ := ih ⟨lab, hl2, hmiss⟩
        refine ⟨lab2, List.mem_cons_of_mem _ hlab2, ?_⟩
        have hallhead : ∀ t ∈ targets, (t.lookup l).isSome = true := by
          intro t ht
          cases hp : t.lookup l with
          | none => exact absurd ⟨t, ht, hp⟩ hhead
          | some p => rfl
        unfold collect
        rw [collectVals_ok l targets hallhead, herr]

/-- C5 (engine modelled from the spec): `collect(targets, labels)` fails
with `MissingLabelError` if and only if some target lacks some requested
label; when every target exposes every requested label it succeeds. -/
theorem collect_missing_iff (targets : List OutputsMap) (labels : List String) :
    ((∃ lab2, collect targets labels
        = Except.error (EngineError.missingLabelError lab2)) ↔
      ∃ lab ∈ labels, ∃ t ∈ targets, t.lookup lab = none) ∧
    ((∀ lab ∈ labels, ∀ t ∈ targets, (t.lookup lab).isSome = true) →
      ∃ res, collect targets labels = Except.ok res) := by
  refine ⟨⟨?_, ?_⟩, collect_ok_of_all targets labels⟩
  · rintro ⟨lab2, herr⟩
    by_contra hnone
    push_neg at hnone
    have hall : ∀ lab ∈ labels, ∀ t ∈ targets, (t.lookup lab).isSome = true := by
      intro lab hl t ht
      cases hp : t.lookup lab with
      | none => exact absurd hp (hnone lab hl t ht)
      | some p => rfl
    obtain ⟨res, hres⟩ := collect_ok_of_all targets labels hall
    rw [hres] at herr
    cases herr
  · intro h
    obtain ⟨lab2, -, herr⟩ := collect_error_of_missing targets labels h
    exact ⟨lab2, herr⟩

/-- Witness for C5: a missing label errors, a present label succeeds. -/
theorem collect_missing_iff_witness :
    (∃ lab2, collect [[("a_path", "x".data)]] ["b_path"]
        = Except.error (EngineError.missingLabelError lab2)) ∧
    (∃ res, collect [[("a_path", "x".data)]] ["a_path"] = Except.ok res) :=
  ⟨(collect_missing_iff [[("a_path", "x".data)]] ["b_path"]).1.mpr
      ⟨"b_path", by decide, [("a_path", "x".data)], by decide, by decide⟩,
   (collect_missing_iff [[("a_path", "x".data)]] ["a_path"]).2 (by decide)⟩

/-- C3 (engine modelled from the spec): when every target exposes the
requested label, `collect(targets, [lab])` returns a single binding of the
pluralized label to an ordered list of one output path per target, of the
same length as `targets`, whose i-th element is the `lab` output of the
i-th target. -/
theorem collect_single_label (targets : List OutputsMap) (lab : String)
    (hall : ∀ t ∈ targets, (t.lookup lab).isSome = true) :
    collect targets [lab]
      = Except.ok [(pluralize lab,
          targets.map (fun t => (t.lookup lab).getD []))] ∧
    (targets.map (fun t => (t.lookup lab).getD [])).length = targets.length ∧
    ∀ i : Fin targets.length,
      (targets.get i).lookup lab
        = some ((targets.map (fun t => (t.lookup lab).getD [])).get
            (Fin.cast (by simp) i)) := by
  refine ⟨?_, by simp, ?_⟩
  · unfold collect
    rw [collectVals_ok lab targets hall]
    rfl
  · intro i
    have hval : ((targets.map (fun t => (t.lookup lab).getD [])).get
        (Fin.cast (by simp) i)) = ((targets.get i).lookup lab).getD [] := by
      simp [List.get_eq_getElem, List.getElem_map, Fin.coe_cast]
    obtain ⟨p, hp⟩ := Option.isSome_iff_exists.mp
      (hall (targets.get i) (targets.get_mem i.1 i.2))
    rw [hval, hp]
    simp

/-- Witness for C3 at two concrete targets exposing `x_path`. -/
theorem collect_single_label_witness :
    collect [[("x_path", "a".data)], [("x_path", "b".data)]] ["x_path"]
      = Except.ok [("x_paths", ["a".data, "b".data])] := by
  have h := (collect_single_label [[("x_path", "a".data)], [("x_path", "b".data)]]
    "x_path" (by decide)).1
  have e : ([[("x_path", "a".data)], [("x_path", "b".data)]].map
      (fun t => (t.lookup "x_path").getD [])) = ["a".data, "b".data] := by decide
  have e2 : pluralize "x_path" = "x_paths" := rfl
  rw [e, e2] at h
  exact h

/-!  The map helper (engine modelled from the spec). -/

theorem register_ok_entries (r r1 : Registry) (nm : String) (t : AnonymousTarget)
    (h : register r nm t = Except.ok r1) :
    r1.entries = r.entries ++ [(nm, t)] := by
  unfold register at h
  split at h
  · cases h
  · injection h with h1
    rw [← h1]

/-- C4 (engine modelled from the spec): a successful
`map(templateFn, items, extra=...)` creates exactly one target per item —
the template applied to that item plus the shared extra parameters — and
returns them in the order of `items` (the i-th returned target, with its
outputs, comes from the i-th item), appending them to the registry in that
same order. -/
theorem gwfMap_ok {α ε : Type} (templateFn : α → ε → AnonymousTarget) (extra : ε)
    (mkName : Nat → String) :
    ∀ (items : List α) (idx : Nat) (r r2 : Registry) (ts : List AnonymousTarget),
      gwfMap templateFn extra mkName items idx r = Except.ok (r2, ts) →
      ts.length = items.length ∧
      (∀ i (hi : i < items.length) (hi2 : i < ts.length),
        ts.get ⟨i, hi2⟩ = templateFn (items.get ⟨i, hi⟩) extra) ∧
      r2.entries.map (fun e => e.2) = r.entries.map (fun e => e.2) ++ ts := by
  intro items
  induction items with
  | nil =>
      intro idx r r2 ts h
      unfold gwfMap at h
      injection h with h1
      cases h1
      refine ⟨rfl, ?_, by simp⟩
      intro i hi _
      cases hi
  | cons item rest ih =>
      intro idx r r2 ts h
      unfold gwfMap at h
      cases hreg : register r (mkName idx) (templateFn item extra) with
      | error e => rw [hreg] at h; cases h
      | ok r1 =>
          rw [hreg] at h
          dsimp only [] at h
          cases hrec : gwfMap templateFn extra mkName rest (idx + 1) r1 with
          | error e => rw [hrec] at h; cases h
          | ok pr =>
              obtain ⟨rf, ts2⟩ := pr
              rw [hrec] at h
              dsimp only [] at h
              injection h with h1
              cases h1
              obtain ⟨hlen, hget, hentries⟩ := ih (idx + 1) r1 _ _ hrec
              refine ⟨by simp [hlen], ?_, ?_⟩
              · intro i hi hi2
                cases i with
                | zero => rfl
                | succ j =>
                    exact hget j (Nat.lt_of_succ_lt_succ hi)
                      (Nat.lt_of_succ_lt_succ hi2)
              · rw [hentries, register_ok_entries r r1 (mkName idx)
                  (templateFn item extra) hreg]
                simp

/-- Witness for C4: mapping uppercase_names over the two workflow input
files registers two targets and returns them in input order. -/
theorem gwfMap_ok_witness :
    ([uppercase_names "data/input_file1.txt".data,
      uppercase_names "data/input_file2.txt".data] : List AnonymousTarget).length
      = (["data/input_file1.txt".data, "data/input_file2.txt".data]
          : List Path).length ∧
    (∀ i (hi : i < (["data/input_file1.txt".data, "data/input_file2.txt".data]
          : List Path).length)
       (hi2 : i < ([uppercase_names "data/input_file1.txt".data,
          uppercase_names "data/input_file2.txt".data] : List AnonymousTarget).length),
       ([uppercase_names "data/input_file1.txt".data,
         uppercase_names "data/input_file2.txt".data]
           : List AnonymousTarget).get ⟨i, hi2⟩
         = (fun (p : Path) (_ : Unit) => uppercase_names p)
             ((["data/input_file1.txt".data, "data/input_file2.txt".data]
                : List Path).get ⟨i, hi⟩) ()) ∧
    (⟨[("t0", uppercase_names "data/input_file1.txt".data),
       ("t1", uppercase_names "data/input_file2.txt".data)]⟩
        : Registry).entries.map (fun e => e.2)
      = (⟨[]⟩ : Registry).entries.map (fun e => e.2)
        ++ [uppercase_names "data/input_file1.txt".data,
            uppercase_names "data/input_file2.txt".data] :=
  gwfMap_ok (fun (p : Path) (_ : Unit) => uppercase_names p) ()
    (fun i => if i = 0 then "t0" else "t1")
    ["data/input_file1.txt".data, "data/input_file2.txt".data] 0
    ⟨[]⟩ _ _ rfl

/-!  The scheduler (engine modelled from the spec). -/

theorem lookup_isSome_of_mem_keys {κ V : Type} [BEq κ] [LawfulBEq κ] (k : κ) :
    ∀ d : List (κ × V), k ∈ d.map Prod.fst → (d.lookup k).isSome = true := by
  intro d
  induction d with
  | nil => intro h; cases h
  | cons a t ih =>
      obtain ⟨a1, a2⟩ := a
      intro h
      rw [List.lookup_cons]
      cases hk : (k == a1) with
      | true => rfl
      | false =>
          apply ih
          rcases List.mem_cons.mp h with h1 | h1
          · rw [h1] at hk
            simp at hk
          · exact h1

theorem runSchedule_append (preds : Nat → List Nat) (upToDate execOk : Nat → Bool) :
    ∀ (l1 l2 : List Nat) (acc : List (Nat × TState) × List Nat),
      runSchedule preds upToDate execOk (l1 ++ l2) acc
        = runSchedule preds upToDate execOk l2
            (runSchedule preds upToDate execOk l1 acc) := by
  intro l1
  induction l1 with
  | nil => intro l2 acc; rfl
  | cons u rest ih =>
      intro l2 acc
      obtain ⟨st, inv⟩ := acc
      by_cases hfp : (preds u).any (fun p => failedLike (st.lookup p)) = true
      · simp only [List.cons_append, runSchedule, hfp, if_pos]
        exact ih l2 _
      · by_cases hu : upToDate u = true
        · simp only [List.cons_append, runSchedule, hfp, hu, if_pos, if_neg,
            Bool.false_eq_true, not_false_iff]
          exact ih l2 _
        · by_cases he : execOk u = true
          · simp only [List.cons_append, runSchedule, hfp, hu, he, if_pos, if_neg,
              Bool.false_eq_true, not_false_iff]
            exact ih l2 _
          · simp only [List.cons_append, runSchedule, hfp, hu, he, if_neg,
              Bool.false_eq_true, not_false_iff]
            exact ih l2 _

theorem runSchedule_shape (preds : Nat → List Nat) (upToDate execOk : Nat → Bool) :
    ∀ (l : List Nat) (st : List (Nat × TState)) (inv : List Nat),
      ∃ ext : List (Nat × TState), ∃ ext2 : List Nat,
        (runSchedule preds upToDate execOk l (st, inv)).1 = st ++ ext ∧
        ext.map Prod.fst = l ∧
        (runSchedule preds upToDate execOk l (st, inv)).2 = inv ++ ext2 ∧
        ∀ x ∈ ext2, x ∈ l := by
  intro l
  induction l with
  | nil => intro st inv; exact ⟨[], [], by simp [runSchedule], rfl, by simp [runSchedule], by simp⟩
  | cons u rest ih =>
      intro st inv
      by_cases hfp : (preds u).any (fun p => failedLike (st.lookup p)) = true
      · obtain ⟨ext, ext2, h1, h2, h3, h4⟩ := ih (st ++ [(u, TState.skippedFailure)]) inv
        refine ⟨(u, TState.skippedFailure) :: ext, ext2, ?_, ?_, ?_, ?_⟩
        · simp only [runSchedule, hfp, if_pos]
          rw [h1]
          simp
        · simp [h2]
        · simp only [runSchedule, hfp, if_pos]
          rw [h3]
        · exact fun x hx => List.mem_cons_of_mem _ (h4 x hx)
      · by_cases hu : upToDate u = true
        · obtain ⟨ext, ext2, h1, h2, h3, h4⟩ := ih (st ++ [(u, TState.skippedUpToDate)]) inv
          refine ⟨(u, TState.skippedUpToDate) :: ext, ext2, ?_, ?_, ?_, ?_⟩
          · simp only [runSchedule, hfp, hu, if_pos, if_neg, Bool.false_eq_true,
              not_false_iff]
            rw [h1]
            simp
          · simp [h2]
          · simp only [runSchedule, hfp, hu, if_pos, if_neg, Bool.false_eq_true,
              not_false_iff]
            rw [h3]
          · exact fun x hx => List.mem_cons_of_mem _ (h4 x hx)
        · by_cases he : execOk u = true
          · obtain ⟨ext, ext2, h1, h2, h3, h4⟩ :=
              ih (st ++ [(u, TState.succeeded)]) (inv ++ [u])
            refine ⟨(u, TState.succeeded) :: ext, u :: ext2, ?_, ?_, ?_, ?_⟩
            · simp only [runSchedule, hfp, hu, he, if_pos, if_neg,
                Bool.false_eq_true, not_false_iff]
              rw [h1]
              simp
            · simp [h2]
            · simp only [runSchedule, hfp, hu, he, if_pos, if_neg,
                Bool.false_eq_true, not_false_iff]
              rw [h3]
              simp
            · intro x hx
              rcases List.mem_cons.mp hx with rfl | hx2
              · simp
              · exact List.mem_cons_of_mem _ (h4 x hx2)
          · obtain ⟨ext, ext2, h1, h2, h3, h4⟩ :=
              ih (st ++ [(u, TState.failed)]) (inv ++ [u])
            refine ⟨(u, TState.failed) :: ext, u :: ext2, ?_, ?_, ?_, ?_⟩
            · simp only [runSchedule, hfp, hu, he, if_neg, Bool.false_eq_true,
                not_false_iff]
              rw [h1]
              simp
            · simp [h2]
            · simp only [runSchedule, hfp, hu, he, if_neg, Bool.false_eq_true,
                not_false_iff]
              rw [h3]
              simp
            · intro x hx
              rcases List.mem_cons.mp hx with rfl | hx2
              · simp
              · exact List.mem_cons_of_mem _ (h4 x hx2)

theorem runSchedule_skip_of_failed_pred (preds : Nat → List Nat)
    (upToDate execOk : Nat → Bool) (order : List Nat) (hnodup : order.Nodup)
    (htopo : ∀ l1 d l2, order = l1 ++ d :: l2 → ∀ p ∈ preds d, p ∈ l1)
    (d : Nat) (l1 l2 : List Nat) (hsplit : order = l1 ++ d :: l2)
    (hpred : ∃ p ∈ preds d,
      failedLike ((runStates preds upToDate execOk order).lookup p) = true) :
    (runStates preds upToDate execOk order).lookup d
      = some TState.skippedFailure ∧
    d ∉ runInvoked preds upToDate execOk order := by
  obtain ⟨p, hpmem, hpfail⟩ := hpred
  have hdl : d ∉ l1 ∧ d ∉ l2 := by
    rw [hsplit] at hnodup
    have h2 := (List.nodup_middle).mp hnodup
    rw [List.nodup_cons] at h2
    constructor
    · exact fun h => h2.1 (List.mem_append.mpr (Or.inl h))
    · exact fun h => h2.1 (List.mem_append.mpr (Or.inr h))
  have hp1 : p ∈ l1 := htopo l1 d l2 hsplit p hpmem
  -- run the order in stages: l1, then d, then l2
  obtain ⟨ext1, inv1, h1st, h1keys, h1inv, h1invsub⟩ :=
    runSchedule_shape preds upToDate execOk l1 [] []
  obtain ⟨st1, iv1, hpair⟩ :
      ∃ a b, runSchedule preds upToDate execOk l1 ([], []) = (a, b) := ⟨_, _, rfl⟩
  rw [hpair] at h1st h1inv
  simp only [List.nil_append] at h1st h1inv
  have hst1eq : st1 = ext1 := h1st
  have hiv1eq : iv1 = inv1 := h1inv
  have hfinal1 : runStates preds upToDate execOk order
      = (runSchedule preds upToDate execOk (d :: l2) (st1, iv1)).1 := by
    unfold runStates
    rw [hsplit, runSchedule_append, hpair]
  obtain ⟨extA, invA, hA1, hA2, hA3, hA4⟩ :=
    runSchedule_shape preds upToDate execOk (d :: l2) st1 iv1
  have hmemkeys : p ∈ st1.map Prod.fst := by
    rw [hst1eq, h1keys]
    exact hp1
  obtain ⟨s, hs⟩ := Option.isSome_iff_exists.mp
    (lookup_isSome_of_mem_keys p st1 hmemkeys)
  have hfinalp : (runStates preds upToDate execOk order).lookup p = some s := by
    rw [hfinal1, hA1]
    exact lookup_append_left p s st1 extA hs
  have hsfail : failedLike (some s) = true := by
    rw [← hfinalp]
    exact hpfail
  have hany : (preds d).any (fun q => failedLike (st1.lookup q)) = true :=
    List.any_eq_true.mpr ⟨p, hpmem, by rw [hs]; exact hsfail⟩
  have hstep : runSchedule preds upToDate execOk (d :: l2) (st1, iv1)
      = runSchedule preds upToDate execOk l2
          (st1 ++ [(d, TState.skippedFailure)], iv1) := by
    simp [runSchedule, hany]
  obtain ⟨extB, invB, hB1, hB2, hB3, hB4⟩ := runSchedule_shape preds upToDate
    execOk l2 (st1 ++ [(d, TState.skippedFailure)]) iv1
  have hdnone : st1.lookup d = none := by
    apply lookup_eq_none_of_all_ne
    intro kv hkv hkd
    have hmem2 : kv.1 ∈ st1.map Prod.fst := List.mem_map_of_mem _ hkv
    rw [hst1eq, h1keys, hkd] at hmem2
    exact hdl.1 hmem2
  have hdlook : (st1 ++ [(d, TState.skippedFailure)]).lookup d
      = some TState.skippedFailure := by
    rw [lookup_append_right d st1 _ hdnone, List.lookup_cons]
    simp
  constructor
  · rw [hfinal1, hstep, hB1]
    exact lookup_append_left d _ _ extB hdlook
  · intro hdmem
    have hfinal2 : runInvoked preds upToDate execOk order
        = (runSchedule preds upToDate execOk l2
            (st1 ++ [(d, TState.skippedFailure)], iv1)).2 := by
      unfold runInvoked
      rw [hsplit, runSchedule_append, hpair, ← hstep]
    rw [hfinal2, hB3] at hdmem
    rcases List.mem_append.mp hdmem with h | h
    · have hdl1 : d ∈ l1 := by
        apply h1invsub
        rw [← hiv1eq]
        exact h
      exact hdl.1 hdl1
    · exact hdl.2 (hB4 d h)
/-- C7 (engine modelled from the spec): in any scheduler run over a
topological order of the dependency graph, if a target fails then every
transitive descendant of it ends in the skipped-due-to-failure state and no
descendant's command is ever invoked (no descendant ever enters the running
state). -/
theorem failure_propagation (preds : Nat → List Nat)
    (upToDate execOk : Nat → Bool) (order : List Nat)
    (hnodup : order.Nodup)
    (htopo : ∀ l1 d l2, order = l1 ++ d :: l2 → ∀ p ∈ preds d, p ∈ l1)
    (hmem : ∀ b, (∃ a, a ∈ preds b) → b ∈ order)
    (t d : Nat)
    (hfail : (runStates preds upToDate execOk order).lookup t
      = some TState.failed)
    (hreach : Reaches preds t d) :
    (runStates preds upToDate execOk order).lookup d
      = some TState.skippedFailure ∧
    d ∉ runInvoked preds upToDate execOk order := by
  induction hreach with
  | single hstep =>
      next m =>
        have hd : m ∈ order := hmem m ⟨t, hstep⟩
        obtain ⟨l1, l2, hsplit⟩ := List.append_of_mem hd
        exact runSchedule_skip_of_failed_pred preds upToDate execOk order hnodup
          htopo m l1 l2 hsplit ⟨t, hstep, by rw [hfail]; rfl⟩
  | tail hsteps hstep ih =>
      next m d2 =>
        have hd : d2 ∈ order := hmem d2 ⟨m, hstep⟩
        obtain ⟨l1, l2, hsplit⟩ := List.append_of_mem hd
        exact runSchedule_skip_of_failed_pred preds upToDate execOk order hnodup
          htopo d2 l1 l2 hsplit ⟨m, hstep, by rw [ih.1]; rfl⟩

/-- Witness for C7: target 0 fails, its descendant 1 is skipped due to the
failure and is never invoked. -/
theorem failure_propagation_witness :
    (runStates (fun n => if n = 1 then [0] else []) (fun _ => false)
        (fun _ => false) [0, 1]).lookup 1 = some TState.skippedFailure ∧
    1 ∉ runInvoked (fun n => if n = 1 then [0] else []) (fun _ => false)
        (fun _ => false) [0, 1] := by
  have htopo : ∀ l1 d l2, ([0, 1] : List Nat) = l1 ++ d :: l2 →
      ∀ p ∈ (if d = 1 then [0] else ([] : List Nat)), p ∈ l1 := by
    intro l1 d l2 hsplit p hp
    cases l1 with
    | nil =>
        rw [List.nil_append] at hsplit
        injection hsplit with h1 h2
        rw [← h1] at hp
        simp at hp
    | cons a l1b =>
        rw [List.cons_append] at hsplit
        injection hsplit with h1 h2
        cases l1b with
        | nil =>
            rw [List.nil_append] at h2
            injection h2 with h3 h4
            rw [← h3] at hp
            simp at hp
            rw [hp, ← h1]
            simp
        | cons b l1c =>
            rw [List.cons_append] at h2
            injection h2 with h3 h4
            exact absurd h4.symm (by simp)
  have hmem : ∀ b : Nat, (∃ a, a ∈ (if b = 1 then [0] else ([] : List Nat))) →
      b ∈ ([0, 1] : List Nat) := by
    intro b hb
    obtain ⟨a, ha⟩ := hb
    by_cases h : b = 1
    · rw [h]; simp
    · rw [if_neg h] at ha
      cases ha
  exact failure_propagation (fun n => if n = 1 then [0] else [])
    (fun _ => false) (fun _ => false) [0, 1] (by decide) htopo hmem 0 1
    (by decide) (Relation.TransGen.single (by decide))

/-!  Correctness of the cycle-detecting depth-first graph walk. -/

theorem dfsListAux_mono
    (visit : Nat → List Nat → List Nat → Except DfsErr (List Nat))
    (hv : ∀ v stack post post', visit v stack post = Except.ok post' →
      ∃ ext, post' = post ++ ext) :
    ∀ (vs stack post : List Nat) (post' : List Nat),
      dfsListAux visit vs stack post = Except.ok post' →
      ∃ ext, post' = post ++ ext := by
  intro vs
  induction vs with
  | nil =>
      intro stack post post' h
      injection h with h1
      exact ⟨[], by rw [← h1]; simp⟩
  | cons v vs ih =>
      intro stack post post' h
      unfold dfsListAux at h
      cases hv1 : visit v stack post with
      | error e => rw [hv1] at h; cases h
      | ok post1 =>
          rw [hv1] at h
          obtain ⟨ext1, he1⟩ := hv v stack post post1 hv1
          obtain ⟨ext2, he2⟩ := ih stack post1 post' h
          exact ⟨ext1 ++ ext2, by rw [he2, he1]; simp⟩

theorem dfsVisit_mono (adjF : Nat → List Nat) :
    ∀ (fuel u : Nat) (stack post post' : List Nat),
      dfsVisit adjF fuel u stack post = Except.ok post' →
      ∃ ext, post' = post ++ ext := by
  intro fuel
  induction fuel with
  | zero => intro u stack post post' h; cases h
  | succ fuel ih =>
      intro u stack post post' h
      unfold dfsVisit at h
      by_cases h1 : u ∈ post
      · rw [if_pos h1] at h
        injection h with h2
        exact ⟨[], by rw [← h2]; simp⟩
      · rw [if_neg h1] at h
        by_cases h2 : u ∈ stack
        · rw [if_pos h2] at h; cases h
        · rw [if_neg h2] at h
          cases hlst : dfsListAux (dfsVisit adjF fuel) (adjF u) (stack ++ [u]) post with
          | error e => rw [hlst] at h; cases h
          | ok post2 =>
              rw [hlst] at h
              injection h with h3
              obtain ⟨ext, hext⟩ :=
                dfsListAux_mono _ (fun v st p p' => ih v st p p') _ _ _ _ hlst
              exact ⟨ext ++ [u], by rw [← h3, hext]; simp⟩

theorem dfsVisit_mem (adjF : Nat → List Nat) :
    ∀ (fuel u : Nat) (stack post post' : List Nat),
      dfsVisit adjF fuel u stack post = Except.ok post' → u ∈ post' := by
  intro fuel u stack post post' h
  cases fuel with
  | zero => cases h
  | succ fuel =>
      unfold dfsVisit at h
      by_cases h1 : u ∈ post
      · rw [if_pos h1] at h
        injection h with h2
        rw [← h2]
        exact h1
      · rw [if_neg h1] at h
        by_cases h2 : u ∈ stack
        · rw [if_pos h2] at h; cases h
        · rw [if_neg h2] at h
          cases hlst : dfsListAux (dfsVisit adjF fuel) (adjF u) (stack ++ [u]) post with
          | error e => rw [hlst] at h; cases h
          | ok post2 =>
              rw [hlst] at h
              injection h with h3
              rw [← h3]
              simp

theorem dfsListAux_mem
    (visit : Nat → List Nat → List Nat → Except DfsErr (List Nat))
    (hvm : ∀ v stack post post', visit v stack post = Except.ok post' → v ∈ post')
    (hv : ∀ v stack post post', visit v stack post = Except.ok post' →
      ∃ ext, post' = post ++ ext) :
    ∀ (vs stack post post' : List Nat),
      dfsListAux visit vs stack post = Except.ok post' →
      ∀ v ∈ vs, v ∈ post' := by
  intro vs
  induction vs with
  | nil => intro stack post post' h v hv2; cases hv2
  | cons v vs ih =>
      intro stack post post' h w hw
      unfold dfsListAux at h
      cases hv1 : visit v stack post with
      | error e => rw [hv1] at h; cases h
      | ok post1 =>
          rw [hv1] at h
          rcases List.mem_cons.mp hw with rfl | hw2
          · obtain ⟨ext, hext⟩ := dfsListAux_mono visit hv vs stack post1 post' h
            rw [hext]
            exact List.mem_append.mpr (Or.inl (hvm w stack post post1 hv1))
          · exact ih stack post1 post' h w hw2

theorem dfsListAux_stack_avoid
    (visit : Nat → List Nat → List Nat → Except DfsErr (List Nat))
    (hv : ∀ v stack post post', visit v stack post = Except.ok post' →
      ∀ w ∈ stack, w ∈ post' → w ∈ post) :
    ∀ (vs stack post post' : List Nat),
      dfsListAux visit vs stack post = Except.ok post' →
      ∀ w ∈ stack, w ∈ post' → w ∈ post := by
  intro vs
  induction vs with
  | nil =>
      intro stack post post' h w hw hwp
      injection h with h1
      rw [← h1] at hwp
      exact hwp
  | cons v vs ih =>
      intro stack post post' h w hw hwp
      unfold dfsListAux at h
      cases hv1 : visit v stack post with
      | error e => rw [hv1] at h; cases h
      | ok post1 =>
          rw [hv1] at h
          exact hv v stack post post1 hv1 w hw (ih stack post1 post' h w hw hwp)

theorem dfsVisit_stack_avoid (adjF : Nat → List Nat) :
    ∀ (fuel u : Nat) (stack post post' : List Nat),
      dfsVisit adjF fuel u stack post = Except.ok post' →
      ∀ w ∈ stack, w ∈ post' → w ∈ post := by
  intro fuel
  induction fuel with
  | zero => intro u stack post post' h; cases h
  | succ fuel ih =>
      intro u stack post post' h w hw hwp
      unfold dfsVisit at h
      by_cases h1 : u ∈ post
      · rw [if_pos h1] at h
        injection h with h2
        rw [← h2] at hwp
        exact hwp
      · rw [if_neg h1] at h
        by_cases h2 : u ∈ stack
        · rw [if_pos h2] at h; cases h
        · rw [if_neg h2] at h
          cases hlst : dfsListAux (dfsVisit adjF fuel) (adjF u) (stack ++ [u]) post with
          | error e => rw [hlst] at h; cases h
          | ok post2 =>
              rw [hlst] at h
              injection h with h3
              rw [← h3] at hwp
              rcases List.mem_append.mp hwp with hwp2 | hwp2
              · exact dfsListAux_stack_avoid _ (fun v st p p' => ih v st p p')
                  _ _ _ _ hlst w (List.mem_append.mpr (Or.inl hw)) hwp2
              · rw [List.mem_singleton.mp hwp2] at hw
                exact absurd hw h2

theorem snoc_split {γ : Type} (post : List γ) (u : γ) :
    ∀ (l1 : List γ) (w : γ) (l2 : List γ), post ++ [u] = l1 ++ w :: l2 →
      (∃ l2b, post = l1 ++ w :: l2b ∧ l2 = l2b ++ [u]) ∨
      (l1 = post ∧ w = u ∧ l2 = []) := by
  intro l1 w l2 h
  rcases List.eq_nil_or_concat l2 with rfl | ⟨l2b, x, rfl⟩
  · right
    have hlen : post.length = l1.length := by
      have := congrArg List.length h
      simpa using this
    obtain ⟨h1, h2⟩ := List.append_inj h hlen
    injection h2 with h3 _
    exact ⟨h1.symm, h3.symm, rfl⟩
  · left
    rw [List.concat_eq_append] at h
    have h2 : post ++ [u] = (l1 ++ w :: l2b) ++ [x] := by
      rw [h]
      simp
    have hlen : post.length = (l1 ++ w :: l2b).length := by
      have hq := congrArg List.length h2
      simp at hq
      simp
      omega
    obtain ⟨h3, h4⟩ := List.append_inj h2 hlen
    injection h4 with h5 _
    exact ⟨l2b, h3, by rw [List.concat_eq_append, h5]⟩

theorem dfsListAux_inv (adjF : Nat → List Nat) (n : Nat)
    (visit : Nat → List Nat → List Nat → Except DfsErr (List Nat))
    (hv : ∀ v stack post post', v < n → post.Nodup → (∀ x ∈ post, x < n) →
      PostInv adjF post → visit v stack post = Except.ok post' →
      post'.Nodup ∧ (∀ x ∈ post', x < n) ∧ PostInv adjF post') :
    ∀ (vs stack post post' : List Nat), (∀ v ∈ vs, v < n) → post.Nodup →
      (∀ x ∈ post, x < n) → PostInv adjF post →
      dfsListAux visit vs stack post = Except.ok post' →
      post'.Nodup ∧ (∀ x ∈ post', x < n) ∧ PostInv adjF post' := by
  intro vs
  induction vs with
  | nil =>
      intro stack post post' _ hnd hb hpi h
      injection h with h1
      rw [← h1]
      exact ⟨hnd, hb, hpi⟩
  | cons v vs ih =>
      intro stack post post' hvb hnd hb hpi h
      unfold dfsListAux at h
      cases hv1 : visit v stack post with
      | error e => rw [hv1] at h; cases h
      | ok post1 =>
          rw [hv1] at h
          obtain ⟨hnd1, hb1, hpi1⟩ := hv v stack post post1 (hvb v (by simp))
            hnd hb hpi hv1
          exact ih stack post1 post' (fun w hw => hvb w (List.mem_cons_of_mem _ hw))
            hnd1 hb1 hpi1 h

theorem dfsVisit_inv (adjF : Nat → List Nat) (n : Nat)
    (hbound : ∀ a, ∀ b ∈ adjF a, b < n) :
    ∀ (fuel u : Nat) (stack post post' : List Nat),
      u < n → post.Nodup → (∀ x ∈ post, x < n) → PostInv adjF post →
      dfsVisit adjF fuel u stack post = Except.ok post' →
      post'.Nodup ∧ (∀ x ∈ post', x < n) ∧ PostInv adjF post' := by
  intro fuel
  induction fuel with
  | zero => intro u stack post post' _ _ _ _ h; cases h
  | succ fuel ih =>
      intro u stack post post' hu hnd hb hpi h
      unfold dfsVisit at h
      by_cases h1 : u ∈ post
      · rw [if_pos h1] at h
        injection h with h2
        rw [← h2]
        exact ⟨hnd, hb, hpi⟩
      · rw [if_neg h1] at h
        by_cases h2 : u ∈ stack
        · rw [if_pos h2] at h; cases h
        · rw [if_neg h2] at h
          cases hlst : dfsListAux (dfsVisit adjF fuel) (adjF u) (stack ++ [u]) post with
          | error e => rw [hlst] at h; cases h
          | ok post2 =>
              rw [hlst] at h
              injection h with h3
              obtain ⟨hnd2, hb2, hpi2⟩ := dfsListAux_inv adjF n (dfsVisit adjF fuel)
                (fun v st p p' hv2 hnd2 hb2 hpi2 hok => ih v st p p' hv2 hnd2 hb2 hpi2 hok)
                (adjF u) (stack ++ [u]) post post2 (fun v hv2 => hbound u v hv2)
                hnd hb hpi hlst
              have hunotin : u ∉ post2 := by
                intro hup
                exact h1 (dfsListAux_stack_avoid _
                  (fun v st p p' => dfsVisit_stack_avoid adjF fuel v st p p')
                  _ _ _ _ hlst u (List.mem_append.mpr (Or.inr (by simp))) hup)
              have hmemadj : ∀ v ∈ adjF u, v ∈ post2 :=
                dfsListAux_mem _ (fun v st p p' => dfsVisit_mem adjF fuel v st p p')
                  (fun v st p p' => dfsVisit_mono adjF fuel v st p p') _ _ _ _ hlst
              refine ⟨?_, ?_, ?_⟩
              · rw [← h3]
                exact List.Nodup.append hnd2 (List.nodup_singleton u)
                  (fun a ha hau => hunotin (by rwa [List.mem_singleton.mp hau] at ha))
              · rw [← h3]
                intro x hx
                rcases List.mem_append.mp hx with hx2 | hx2
                · exact hb2 x hx2
                · rw [List.mem_singleton.mp hx2]
                  exact hu
              · rw [← h3]
                intro l1 w l2 hsplit v hvw
                rcases snoc_split post2 u l1 w l2 hsplit with ⟨l2b, hpost, -⟩ |
                    ⟨hl1, hwq, -⟩
                · exact hpi2 l1 w l2b hpost v hvw
                · rw [hl1]
                  rw [hwq] at hvw
                  exact hmemadj v hvw
theorem dfsListAux_error_source
    (visit : Nat → List Nat → List Nat → Except DfsErr (List Nat)) :
    ∀ (vs stack post : List Nat) (e : DfsErr),
      dfsListAux visit vs stack post = Except.error e →
      ∃ v ∈ vs, ∃ post0, visit v stack post0 = Except.error e := by
  intro vs
  induction vs with
  | nil => intro stack post e h; cases h
  | cons v vs ih =>
      intro stack post e h
      unfold dfsListAux at h
      cases hv1 : visit v stack post with
      | error e2 =>
          rw [hv1] at h
          injection h with h1
          exact ⟨v, by simp, post, by rw [h1] at hv1; exact hv1⟩
      | ok post1 =>
          rw [hv1] at h
          obtain ⟨w, hw, post0, hp0⟩ := ih stack post1 e h
          exact ⟨w, List.mem_cons_of_mem _ hw, post0, hp0⟩

theorem nodup_bounded_length_le (n : Nat) :
    ∀ stack : List Nat, stack.Nodup → (∀ w ∈ stack, w < n) →
      stack.length ≤ n := by
  intro stack hnd hb
  have hsub : stack.toFinset ⊆ Finset.range n := by
    intro a ha
    exact Finset.mem_range.mpr (hb a (List.mem_toFinset.mp ha))
  have := Finset.card_le_card hsub
  rw [List.toFinset_card_of_nodup hnd] at this
  simpa using this

theorem dfsVisit_no_fuelOut (adjF : Nat → List Nat) (n : Nat)
    (hbound : ∀ a, ∀ b ∈ adjF a, b < n) :
    ∀ (fuel u : Nat) (stack post : List Nat),
      u < n → stack.Nodup → (∀ w ∈ stack, w < n) →
      n + 1 - stack.length ≤ fuel →
      dfsVisit adjF fuel u stack post ≠ Except.error DfsErr.fuelOut := by
  intro fuel
  induction fuel with
  | zero =>
      intro u stack post hu hnd hb hfuel
      have := nodup_bounded_length_le n stack hnd hb
      omega
  | succ fuel ih =>
      intro u stack post hu hnd hb hfuel h
      unfold dfsVisit at h
      by_cases h1 : u ∈ post
      · rw [if_pos h1] at h; cases h
      · rw [if_neg h1] at h
        by_cases h2 : u ∈ stack
        · rw [if_pos h2] at h; cases h
        · rw [if_neg h2] at h
          cases hlst : dfsListAux (dfsVisit adjF fuel) (adjF u) (stack ++ [u]) post with
          | error e =>
              rw [hlst] at h
              injection h with h3
              rw [h3] at hlst
              obtain ⟨v, hv, post0, hp0⟩ :=
                dfsListAux_error_source _ _ _ _ _ hlst
              have hnd2 : (stack ++ [u]).Nodup :=
                List.Nodup.append hnd (List.nodup_singleton u)
                  (fun a ha hau => h2 (by rwa [← List.mem_singleton.mp hau]))
              have hb2 : ∀ w ∈ stack ++ [u], w < n := by
                intro w hw
                rcases List.mem_append.mp hw with hw2 | hw2
                · exact hb w hw2
                · rw [List.mem_singleton.mp hw2]
                  exact hu
              have hlen2 : stack.length + 1 ≤ n := by
                have := nodup_bounded_length_le n (stack ++ [u]) hnd2 hb2
                simpa using this
              exact ih v (stack ++ [u]) post0 (hbound u v hv) hnd2 hb2
                (by simp; omega) hp0
          | ok post2 => rw [hlst] at h; cases h

theorem dfsVisit_no_cyclic (adjF : Nat → List Nat) (hacyc : Acyclic adjF) :
    ∀ (fuel u : Nat) (stack post : List Nat),
      (∀ a ∈ stack, Relation.TransGen (fun x y => y ∈ adjF x) a u) →
      ∀ cyc, dfsVisit adjF fuel u stack post ≠ Except.error (DfsErr.cyclic cyc) := by
  intro fuel
  induction fuel with
  | zero => intro u stack post _ cyc h; cases h
  | succ fuel ih =>
      intro u stack post hstack cyc h
      unfold dfsVisit at h
      by_cases h1 : u ∈ post
      · rw [if_pos h1] at h; cases h
      · rw [if_neg h1] at h
        by_cases h2 : u ∈ stack
        · exact hacyc u (hstack u h2)
        · rw [if_neg h2] at h
          cases hlst : dfsListAux (dfsVisit adjF fuel) (adjF u) (stack ++ [u]) post with
          | error e =>
              rw [hlst] at h
              injection h with h3
              rw [h3] at hlst
              obtain ⟨v, hv, post0, hp0⟩ :=
                dfsListAux_error_source _ _ _ _ _ hlst
              refine ih v (stack ++ [u]) post0 ?_ cyc hp0
              intro a ha
              rcases List.mem_append.mp ha with ha2 | ha2
              · exact Relation.TransGen.tail (hstack a ha2) hv
              · rw [List.mem_singleton.mp ha2]
                exact Relation.TransGen.single hv
          | ok post2 => rw [hlst] at h; cases h

theorem dfsVisit_cyclic_ne_nil (adjF : Nat → List Nat) :
    ∀ (fuel u : Nat) (stack post : List Nat) (cyc : List Nat),
      dfsVisit adjF fuel u stack post = Except.error (DfsErr.cyclic cyc) →
      cyc ≠ [] := by
  intro fuel
  induction fuel with
  | zero => intro u stack post cyc h; cases h
  | succ fuel ih =>
      intro u stack post cyc h
      unfold dfsVisit at h
      by_cases h1 : u ∈ post
      · rw [if_pos h1] at h; cases h
      · rw [if_neg h1] at h
        by_cases h2 : u ∈ stack
        · rw [if_pos h2] at h
          injection h with h3
          injection h3 with h4
          rw [← h4]
          unfold cycleFrom
          exact List.append_ne_nil_of_right_ne_nil _ (by simp)
        · rw [if_neg h2] at h
          cases hlst : dfsListAux (dfsVisit adjF fuel) (adjF u) (stack ++ [u]) post with
          | error e =>
              rw [hlst] at h
              injection h with h3
              rw [h3] at hlst
              obtain ⟨v, hv, post0, hp0⟩ :=
                dfsListAux_error_source _ _ _ _ _ hlst
              exact ih v (stack ++ [u]) post0 cyc hp0
          | ok post2 => rw [hlst] at h; cases h

theorem topoAll_ok_props (adjF : Nat → List Nat) (fuel : Nat) :
    ∀ (us post post' : List Nat), topoAll adjF fuel us post = Except.ok post' →
      (∃ ext, post' = post ++ ext) ∧ ∀ u ∈ us, u ∈ post' := by
  intro us
  induction us with
  | nil =>
      intro post post' h
      injection h with h1
      exact ⟨⟨[], by rw [← h1]; simp⟩, by simp⟩
  | cons u us ih =>
      intro post post' h
      unfold topoAll at h
      cases hv : dfsVisit adjF fuel u [] post with
      | error e => rw [hv] at h; cases h
      | ok post1 =>
          rw [hv] at h
          obtain ⟨⟨ext2, he2⟩, hmem⟩ := ih post1 post' h
          obtain ⟨ext1, he1⟩ := dfsVisit_mono adjF fuel u [] post post1 hv
          refine ⟨⟨ext1 ++ ext2, by rw [he2, he1]; simp⟩, ?_⟩
          intro w hw
          rcases List.mem_cons.mp hw with rfl | hw2
          · rw [he2]
            exact List.mem_append.mpr
              (Or.inl (dfsVisit_mem adjF fuel w [] post post1 hv))
          · exact hmem w hw2

theorem topoAll_inv (adjF : Nat → List Nat) (n : Nat)
    (hbound : ∀ a, ∀ b ∈ adjF a, b < n) (fuel : Nat) :
    ∀ (us post post' : List Nat), (∀ u ∈ us, u < n) → post.Nodup →
      (∀ x ∈ post, x < n) → PostInv adjF post →
      topoAll adjF fuel us post = Except.ok post' →
      post'.Nodup ∧ (∀ x ∈ post', x < n) ∧ PostInv adjF post' := by
  intro us
  induction us with
  | nil =>
      intro post post' _ hnd hb hpi h
      injection h with h1
      rw [← h1]
      exact ⟨hnd, hb, hpi⟩
  | cons u us ih =>
      intro post post' hub hnd hb hpi h
      unfold topoAll at h
      cases hv : dfsVisit adjF fuel u [] post with
      | error e => rw [hv] at h; cases h
      | ok post1 =>
          rw [hv] at h
          obtain ⟨hnd1, hb1, hpi1⟩ := dfsVisit_inv adjF n hbound fuel u [] post
            post1 (hub u (by simp)) hnd hb hpi hv
          exact ih post1 post' (fun w hw => hub w (List.mem_cons_of_mem _ hw))
            hnd1 hb1 hpi1 h

theorem topoAll_error_source (adjF : Nat → List Nat) (fuel : Nat) :
    ∀ (us post : List Nat) (e : DfsErr),
      topoAll adjF fuel us post = Except.error e →
      ∃ u ∈ us, ∃ post0, dfsVisit adjF fuel u [] post0 = Except.error e := by
  intro us
  induction us with
  | nil => intro post e h; cases h
  | cons u us ih =>
      intro post e h
      unfold topoAll at h
      cases hv : dfsVisit adjF fuel u [] post with
      | error e2 =>
          rw [hv] at h
          injection h with h1
          exact ⟨u, by simp, post, by rw [h1] at hv; exact hv⟩
      | ok post1 =>
          rw [hv] at h
          obtain ⟨w, hw, post0, hp0⟩ := ih post1 e h
          exact ⟨w, List.mem_cons_of_mem _ hw, post0, hp0⟩

theorem postInv_descend (adjF : Nat → List Nat) (post : List Nat)
    (hinv : PostInv adjF post) :
    ∀ u b, Relation.TransGen (fun x y => y ∈ adjF x) u b →
      ∀ l1 l2, post = l1 ++ u :: l2 → b ∈ l1 := by
  intro u b h
  induction h with
  | single hstep =>
      intro l1 l2 hsplit
      exact hinv l1 u l2 hsplit _ hstep
  | tail hsteps hstep ih =>
      next m b2 =>
        intro l1 l2 hsplit
        have hm : m ∈ l1 := ih l1 l2 hsplit
        obtain ⟨l1a, l1b, hl1⟩ := List.append_of_mem hm
        have hsplit2 : post = l1a ++ m :: (l1b ++ u :: l2) := by
          rw [hsplit, hl1]
          simp
        have hb2 := hinv l1a m (l1b ++ u :: l2) hsplit2 _ hstep
        rw [hl1]
        exact List.mem_append.mpr (Or.inl hb2)

theorem lookup_mem {κ V : Type} [BEq κ] [LawfulBEq κ] (k : κ) :
    ∀ (d : List (κ × V)) (v : V), d.lookup k = some v → (k, v) ∈ d := by
  intro d
  induction d with
  | nil => intro v h; cases h
  | cons a t ih =>
      obtain ⟨a1, a2⟩ := a
      intro v h
      rw [List.lookup_cons] at h
      cases hk : (k == a1) with
      | true =>
          rw [hk] at h
          injection h with h1
          have hk2 : k = a1 := by simpa using hk
          rw [hk2, h1]
          simp
      | false =>
          rw [hk] at h
          exact List.mem_cons_of_mem _ (ih v h)

theorem outputProducers_bounded (ts : List AnonymousTarget) :
    ∀ x ∈ outputProducers ts, x.2 < ts.length := by
  intro x hx
  unfold outputProducers at hx
  rw [List.mem_flatten] at hx
  obtain ⟨inner, hinner, hxin⟩ := hx
  rw [List.mem_map] at hinner
  obtain ⟨it, hit, hinner2⟩ := hinner
  rw [← hinner2] at hxin
  rw [List.mem_map] at hxin
  obtain ⟨o, _, hxo⟩ := hxin
  obtain ⟨i1, i2⟩ := it
  have hget := List.mk_mem_enum_iff_getElem?.mp hit
  rw [← hxo]
  by_contra hc
  push_neg at hc
  rw [List.getElem?_eq_none (by simpa using hc)] at hget
  cases hget

theorem derivedEdges_bounded (ts : List AnonymousTarget) :
    ∀ e ∈ derivedEdges ts, e.1 < ts.length ∧ e.2 < ts.length := by
  intro e he
  unfold derivedEdges at he
  rw [List.mem_flatten] at he
  obtain ⟨inner, hinner, hein⟩ := he
  rw [List.mem_map] at hinner
  obtain ⟨jt, hjt, hinner2⟩ := hinner
  obtain ⟨j, t⟩ := jt
  have hget := List.mk_mem_enum_iff_getElem?.mp hjt
  have hjlt : j < ts.length := by
    by_contra hc
    push_neg at hc
    rw [List.getElem?_eq_none hc] at hget
    cases hget
  rw [← hinner2] at hein
  rw [List.mem_filterMap] at hein
  obtain ⟨p, -, hp⟩ := hein
  cases hlook : (outputProducers ts).lookup p with
  | none => rw [hlook] at hp; cases hp
  | some i =>
      rw [hlook] at hp
      injection hp with hp1
      have hmem := lookup_mem p (outputProducers ts) i hlook
      have := outputProducers_bounded ts (p, i) hmem
      rw [← hp1]
      exact ⟨this, hjlt⟩

theorem adjOf_bounded (ts : List AnonymousTarget) :
    ∀ a, ∀ b ∈ adjOf ts a, b < ts.length := by
  intro a b hb
  unfold adjOf at hb
  rw [List.mem_filterMap] at hb
  obtain ⟨e, he, hbe⟩ := hb
  by_cases hea : e.1 = a
  · rw [if_pos hea] at hbe
    injection hbe with hbe1
    rw [← hbe1]
    exact (derivedEdges_bounded ts e he).2
  · rw [if_neg hea] at hbe
    cases hbe

theorem postInv_nil (adjF : Nat → List Nat) : PostInv adjF [] := by
  intro l1 u l2 hsplit
  exact absurd (List.append_eq_nil.mp hsplit.symm).2 (List.cons_ne_nil u l2)

theorem topo_core (adjF : Nat → List Nat) (n : Nat)
    (hbound : ∀ a, ∀ b ∈ adjF a, b < n) :
    (Acyclic adjF →
      ∃ post, topoAll adjF (n + 1) (List.range n) [] = Except.ok post ∧
        post.Perm (List.range n) ∧ PostInv adjF post) ∧
    (¬ Acyclic adjF →
      ∃ cyc, topoAll adjF (n + 1) (List.range n) []
          = Except.error (DfsErr.cyclic cyc) ∧ cyc ≠ []) := by
  have hok : ∀ post, topoAll adjF (n + 1) (List.range n) [] = Except.ok post →
      post.Perm (List.range n) ∧ post.Nodup ∧ PostInv adjF post := by
    intro post hrun
    obtain ⟨-, hall⟩ := topoAll_ok_props adjF (n + 1) _ _ _ hrun
    obtain ⟨hnd, hb, hpi⟩ := topoAll_inv adjF n hbound (n + 1) _ _ _
      (fun u hu => List.mem_range.mp hu) List.nodup_nil (by simp)
      (postInv_nil adjF) hrun
    refine ⟨(List.perm_ext_iff_of_nodup hnd (List.nodup_range n)).mpr ?_, hnd, hpi⟩
    intro a
    exact ⟨fun ha => List.mem_range.mpr (hb a ha), fun ha => hall a ha⟩
  constructor
  · intro hacyc
    cases hrun : topoAll adjF (n + 1) (List.range n) [] with
    | error e =>
        cases e with
        | cyclic cyc =>
            obtain ⟨u, hu, post0, hp0⟩ := topoAll_error_source adjF (n + 1) _ _ _ hrun
            exact absurd hp0
              (dfsVisit_no_cyclic adjF hacyc (n + 1) u [] post0 (by simp) cyc)
        | fuelOut =>
            obtain ⟨u, hu, post0, hp0⟩ := topoAll_error_source adjF (n + 1) _ _ _ hrun
            exact absurd hp0 (dfsVisit_no_fuelOut adjF n hbound (n + 1) u [] post0
              (List.mem_range.mp hu) List.nodup_nil (by simp) (by simp))
    | ok post =>
        obtain ⟨hperm, -, hpi⟩ := hok post hrun
        exact ⟨post, rfl, hperm, hpi⟩
  · intro hcyc
    rw [Acyclic] at hcyc
    push_neg at hcyc
    obtain ⟨u, hu⟩ := hcyc
    cases hrun : topoAll adjF (n + 1) (List.range n) [] with
    | ok post =>
        exfalso
        obtain ⟨-, hall⟩ := topoAll_ok_props adjF (n + 1) _ _ _ hrun
        obtain ⟨-, hnd, hpi⟩ := hok post hrun
        obtain ⟨b, -, hstep⟩ := Relation.TransGen.tail'_iff.mp hu
        have hun : u < n := hbound b u hstep
        have humem : u ∈ post := hall u (List.mem_range.mpr hun)
        obtain ⟨l1, l2, hsplit⟩ := List.append_of_mem humem
        have hul1 : u ∈ l1 := postInv_descend adjF post hpi u u hu l1 l2 hsplit
        rw [hsplit] at hnd
        have h2 := List.nodup_middle.mp hnd
        rw [List.nodup_cons] at h2
        exact h2.1 (List.mem_append.mpr (Or.inl hul1))
    | error e =>
        cases e with
        | cyclic cyc =>
            obtain ⟨v, hv, post0, hp0⟩ := topoAll_error_source adjF (n + 1) _ _ _ hrun
            exact ⟨cyc, rfl, dfsVisit_cyclic_ne_nil adjF (n + 1) v [] post0 cyc hp0⟩
        | fuelOut =>
            obtain ⟨v, hv, post0, hp0⟩ := topoAll_error_source adjF (n + 1) _ _ _ hrun
            exact absurd hp0 (dfsVisit_no_fuelOut adjF n hbound (n + 1) v [] post0
              (List.mem_range.mp hv) List.nodup_nil (by simp) (by simp))

theorem build_graph_eq (r : Registry) :
    build_graph r =
      match topoAll (adjOf (r.entries.map (fun e => e.2)))
          ((r.entries.map (fun e => e.2)).length + 1)
          (List.range (r.entries.map (fun e => e.2)).length) [] with
      | Except.ok post => Except.ok post.reverse
      | Except.error (DfsErr.cyclic cyc) =>
          Except.error (EngineError.cyclicDependencyError
            (cyc.map (fun i => (r.entries.map (fun e => e.1)).getD i "")))
      | Except.error DfsErr.fuelOut =>
          Except.error EngineError.schedulerInternalError := rfl

/-- C6 (engine modelled from the spec): for every registry whose derived
dependency graph is acyclic, `build_graph` terminates and returns a
topological ordering of all registered targets (a permutation of the target
indices in which every derived edge goes forward); for every cyclic
registry it fails with `CyclicDependencyError` naming the participating
targets (a nonempty list, the recursion stack from the first occurrence of
the revisited target, in detected order). -/
theorem build_graph_correct (r : Registry) :
    (Acyclic (adjOf (r.entries.map (fun e => e.2))) →
      ∃ ord, build_graph r = Except.ok ord ∧
        ord.Perm (List.range (r.entries.map (fun e => e.2)).length) ∧
        ∀ i j, j ∈ adjOf (r.entries.map (fun e => e.2)) i →
          ∀ l1 l2, ord = l1 ++ i :: l2 → j ∈ l2) ∧
    (¬ Acyclic (adjOf (r.entries.map (fun e => e.2))) →
      ∃ cyc, build_graph r
          = Except.error (EngineError.cyclicDependencyError cyc) ∧
        cyc ≠ []) := by
  obtain ⟨hA, hC⟩ := topo_core (adjOf (r.entries.map (fun e => e.2)))
    (r.entries.map (fun e => e.2)).length
    (adjOf_bounded (r.entries.map (fun e => e.2)))
  constructor
  · intro hacyc
    obtain ⟨post, hrun, hperm, hpi⟩ := hA hacyc
    refine ⟨post.reverse, ?_, ?_, ?_⟩
    · rw [build_graph_eq, hrun]
    · exact (List.reverse_perm post).trans hperm
    · intro i j hij l1 l2 hsplit
      have hpost : post = l2.reverse ++ i :: l1.reverse := by
        have hq := congrArg List.reverse hsplit
        rw [List.reverse_reverse] at hq
        rw [hq]
        simp
      exact List.mem_reverse.mp (hpi l2.reverse i l1.reverse hpost j hij)
  · intro hcyc
    obtain ⟨cyc, hrun, hne⟩ := hC hcyc
    refine ⟨cyc.map (fun i => (r.entries.map (fun e => e.1)).getD i ""), ?_, ?_⟩
    · rw [build_graph_eq, hrun]
    · intro hmap
      rw [List.map_eq_nil_iff] at hmap
      exact hne hmap

theorem acyclic_of_increasing (ts : List AnonymousTarget)
    (h : ∀ e ∈ derivedEdges ts, e.1 < e.2) : Acyclic (adjOf ts) := by
  intro u hu
  have hstep : ∀ x y, y ∈ adjOf ts x → x < y := by
    intro x y hy
    unfold adjOf at hy
    rw [List.mem_filterMap] at hy
    obtain ⟨e, he, hye⟩ := hy
    by_cases hex : e.1 = x
    · rw [if_pos hex] at hye
      injection hye with h1
      rw [← hex, ← h1]
      exact h e he
    · rw [if_neg hex] at hye
      cases hye
  have hmono : ∀ a b, Relation.TransGen (fun x y => y ∈ adjOf ts x) a b → a < b := by
    intro a b hab
    induction hab with
    | single h1 => exact hstep _ _ h1
    | tail h1 h2 ih => exact lt_trans ih (hstep _ _ h2)
  exact lt_irrefl u (hmono u u hu)

/-- Witness for C6: a two-target chain builds a topological order over both
targets; two mutually dependent targets are rejected with a nonempty
cycle. -/
theorem build_graph_correct_witness :
    (∃ ord, build_graph ⟨[
        ("a", { inputs := [PyObj.str "in.txt".data],
                outputs := [("o", "a.txt".data)], options := [], spec := [] }),
        ("b", { inputs := [PyObj.str "a.txt".data],
                outputs := [("o", "b.txt".data)], options := [], spec := [] })]⟩
        = Except.ok ord ∧ ord.Perm (List.range 2)) ∧
    (∃ cyc, build_graph ⟨[
        ("a", { inputs := [PyObj.str "b.txt".data],
                outputs := [("o", "a.txt".data)], options := [], spec := [] }),
        ("b", { inputs := [PyObj.str "a.txt".data],
                outputs := [("o", "b.txt".data)], options := [], spec := [] })]⟩
        = Except.error (EngineError.cyclicDependencyError cyc) ∧ cyc ≠ []) := by
  constructor
  · obtain ⟨ord, hok, hperm, -⟩ := (build_graph_correct ⟨[
        ("a", { inputs := [PyObj.str "in.txt".data],
                outputs := [("o", "a.txt".data)], options := [], spec := [] }),
        ("b", { inputs := [PyObj.str "a.txt".data],
                outputs := [("o", "b.txt".data)], options := [], spec := [] })]⟩).1
      (acyclic_of_increasing _ (by decide))
    exact ⟨ord, hok, hperm⟩
  · apply (build_graph_correct ⟨[
        ("a", { inputs := [PyObj.str "b.txt".data],
                outputs := [("o", "a.txt".data)], options := [], spec := [] }),
        ("b", { inputs := [PyObj.str "a.txt".data],
                outputs := [("o", "b.txt".data)], options := [], spec := [] })]⟩).2
    intro hA
    have h1 : Relation.TransGen (fun a b => b ∈ adjOf
        [({ inputs := [PyObj.str "b.txt".data], outputs := [("o", "a.txt".data)],
            options := [], spec := [] } : AnonymousTarget),
         { inputs := [PyObj.str "a.txt".data], outputs := [("o", "b.txt".data)],
            options := [], spec := [] }] a) 0 1 :=
      Relation.TransGen.single (by decide)
    have h2 := Relation.TransGen.tail h1 (by decide : (0 : Nat) ∈ adjOf
        [({ inputs := [PyObj.str "b.txt".data], outputs := [("o", "a.txt".data)],
            options := [], spec := [] } : AnonymousTarget),
         { inputs := [PyObj.str "a.txt".data], outputs := [("o", "b.txt".data)],
            options := [], spec := [] }] 1)
    exact hA 0 h2
end Gwf
